import Mathlib

/-!
Verification of the classic graph generators of `networkx/generators/classic.py`.

The mutable networkx graph container is embedded as an explicit record
(`Graph`): a directed flag, a multigraph flag, the node list in insertion
order, the edge list in insertion order (one entry per stored edge; for a
simple undirected graph each unordered edge is stored once, in the
orientation in which it was first added), and the `name` attribute.

Generators that can raise return `Except`; `star_graph` additionally reports
the state of the caller-supplied `create_using` container at raise time,
mirroring the fact that in Python the caller still holds a reference to the
mutated object after the exception propagates.
-/

set_option maxRecDepth 8192

def noName : String := ""

def commaSpace : String := ", "

def indexErrorMsg : String := "IndexError: list index out of range"

def directedErrorMsg : String := "Directed Graph not supported"

def multigraphErrorMsg : String := "Multigraph not supported"

def turanRangeErrorMsg : String := "Must satisfy 1 <= r <= n"

def barbellM1ErrorMsg : String := "Invalid graph description, m1 should be >=2"

def barbellM2ErrorMsg : String := "Invalid graph description, m2 should be >=0"

/-- Embedding of the networkx graph container: capability flags, node list in
insertion order, stored edge list in insertion order, and the name attribute. -/
@[ext] structure Graph (α : Type) where
  directed : Bool
  multi : Bool
  nodes : List α
  edges : List (α × α)
  name : String
deriving Repr

/-- A fresh `nx.Graph()`: simple, undirected, empty, name `''`. -/
def Graph.fresh {α : Type} : Graph α := ⟨false, false, [], [], noName⟩

/-- `G.clear()`: removes all nodes and edges and resets the name, keeping the
class (directed/multigraph capability) of the container. -/
def Graph.clear {α : Type} (g : Graph α) : Graph α :=
  ⟨g.directed, g.multi, [], [], noName⟩

/-- `G.add_node(v)`: appends `v` to the node list unless already present. -/
def Graph.addNode {α : Type} [DecidableEq α] (g : Graph α) (v : α) : Graph α :=
  if v ∈ g.nodes then g else ⟨g.directed, g.multi, g.nodes ++ [v], g.edges, g.name⟩

/-- `G.add_nodes_from(vs)`. -/
def Graph.addNodes {α : Type} [DecidableEq α] (g : Graph α) (vs : List α) : Graph α :=
  vs.foldl Graph.addNode g

/-- `G.add_edge(u, v)`: adds the endpoints as nodes, then stores the edge.
A multigraph always appends a parallel edge; a simple directed graph appends
unless `(u,v)` is present; a simple undirected graph appends unless `(u,v)`
or `(v,u)` is present (adjacency is symmetric). -/
def Graph.addEdge {α : Type} [DecidableEq α] (g : Graph α) (u v : α) : Graph α :=
  let g1 := (g.addNode u).addNode v
  if g.multi then ⟨g1.directed, g1.multi, g1.nodes, g1.edges ++ [(u, v)], g1.name⟩
  else if (if g.directed then (u, v) ∈ g.edges else (u, v) ∈ g.edges ∨ (v, u) ∈ g.edges)
    then g1
    else ⟨g1.directed, g1.multi, g1.nodes, g1.edges ++ [(u, v)], g1.name⟩

/-- `G.add_edges_from(ps)`. -/
def Graph.addEdges {α : Type} [DecidableEq α] (g : Graph α) (ps : List (α × α)) : Graph α :=
  ps.foldl (fun h p => h.addEdge p.1 p.2) g

/-- `G.degree(v)`: the number of stored edges incident to `v`, a self-loop
counting twice (as in networkx). -/
def Graph.degree {α : Type} [DecidableEq α] (g : Graph α) (v : α) : ℕ :=
  g.edges.countP (fun e => decide (e.1 = v)) + g.edges.countP (fun e => decide (e.2 = v))

/-- Boolean membership of an unordered edge among the stored edges of a
simple undirected graph. -/
def edgeMemB {α : Type} [DecidableEq α] (es : List (α × α)) (p : α × α) : Bool :=
  decide (p ∈ es ∨ p.swap ∈ es)

/-- Two simple undirected graphs have the same (unordered) edge set. -/
def sameEdgeSet {α : Type} [DecidableEq α] (g h : Graph α) : Bool :=
  g.edges.all (fun p => edgeMemB h.edges p) && h.edges.all (fun p => edgeMemB g.edges p)

/-- Extracts the resulting graph of a successful generator call
(`Graph.fresh` is a never-used placeholder on the error branch). -/
def okG {ε : Type} {α : Type} (e : Except ε (Graph α)) : Graph α :=
  match e with
  | .ok g => g
  | .error _ => Graph.fresh

/-- The directed capability of an optional `create_using` container (a fresh
default container is undirected). -/
def cuDir {α : Type} (cu : Option (Graph α)) : Bool :=
  match cu with
  | none => false
  | some g => g.directed

/-- The multigraph capability of an optional `create_using` container (a
fresh default container is a simple graph). -/
def cuMulti {α : Type} (cu : Option (Graph α)) : Bool :=
  match cu with
  | none => false
  | some g => g.multi

/-- The `networkx.utils.pairwise` utility: consecutive pairs of a sequence. -/
def pairwiseL {β : Type} (l : List β) : List (β × β) := l.zip l.tail

/-- Running-total helper for `networkx.utils.accumulate` (itertools-style). -/
def accumulateFrom (s : ℕ) : List ℕ → List ℕ
  | [] => []
  | x :: xs => (s + x) :: accumulateFrom (s + x) xs

/-- `accumulate(l)`: the running totals `[x0, x0+x1, ...]`. -/
def accumulate (l : List ℕ) : List ℕ := accumulateFrom 0 l

/-- `itertools.combinations(l, 2)` in emission order: pairs of entries at
strictly increasing positions. -/
def comb2 {β : Type} : List β → List (β × β)
  | [] => []
  | a :: l => l.map (fun b => (a, b)) ++ comb2 l

/-- Index pairs `(i, j)` with `i ≠ j`, in the emission order of
`itertools.permutations(_, 2)`. -/
def idxPairs (n : ℕ) : List (ℕ × ℕ) :=
  (List.range n).flatMap
    (fun i => ((List.range n).filter (fun j => decide (j ≠ i))).map (fun j => (i, j)))

/-- `itertools.permutations(l, 2)`: element pairs at distinct positions, in
emission order. -/
def perm2 (l : List ℕ) : List (ℕ × ℕ) :=
  (idxPairs l.length).map (fun p => (l.getD p.1 0, l.getD p.2 0))

/-- The Python `str` rendering of a list of ints, e.g. `[0, 1, 2]`. -/
def pyListRepr (l : List ℕ) : String :=
  "[" ++ String.intercalate commaSpace (l.map Nat.repr) ++ "]"

/-- The Python `str` rendering of a tuple of ints, e.g. `(1, 2, 3)`, `(3,)`,
`()`. -/
def pyTupleRepr (l : List ℕ) : String :=
  match l with
  | [] => "()"
  | [a] => "(" ++ Nat.repr a ++ ",)"
  | _ => "(" ++ String.intercalate commaSpace (l.map Nat.repr) ++ ")"

/-- A node-specification argument as accepted by the `nodes_or_number`
decorator: an integer count, or an explicit node list. -/
inductive NodeSpec where
  | int : ℕ → NodeSpec
  | nodes : List ℕ → NodeSpec
deriving Repr, DecidableEq

/-- Resolution of a `NodeSpec` to the ordered node sequence: `range(n)` for
an integer, the materialized list otherwise. -/
def NodeSpec.resolve : NodeSpec → List ℕ
  | .int n => List.range n
  | .nodes l => l

/-- The `%s` rendering of the original (unresolved) argument. -/
def NodeSpec.reprPy : NodeSpec → String
  | .int n => Nat.repr n
  | .nodes l => pyListRepr l

/-- The `%s` rendering of the decorated `(n_name, nodes)` tuple, as used in
the periodic `grid_2d_graph` name. -/
def NodeSpec.tupleRepr : NodeSpec → String
  | .int n => "(" ++ Nat.repr n ++ commaSpace ++ pyListRepr (List.range n) ++ ")"
  | .nodes l => "(" ++ pyListRepr l ++ commaSpace ++ pyListRepr l ++ ")"

/-- Shared core of `empty_graph`: reuse (after `clear`) or create the
container, set the `empty_graph(...)` name, then add the given nodes.
`label` is the `%s` rendering of the argument that was passed. -/
def emptyCore {α : Type} [DecidableEq α] (label : String) (ns : List α)
    (cu : Option (Graph α)) : Graph α :=
  let G0 := match cu with
    | none => Graph.fresh
    | some g => g.clear
  Graph.addNodes ⟨G0.directed, G0.multi, G0.nodes, G0.edges, "empty_graph(" ++ label ++ ")"⟩ ns

/-- `empty_graph(n, create_using)` from the source: the single path by which
generators obtain their initial container. -/
def empty_graph (n : NodeSpec) (cu : Option (Graph ℕ)) : Graph ℕ :=
  emptyCore n.reprPy n.resolve cu

/-- `complete_graph(n, create_using)` from the source. -/
def complete_graph (n : NodeSpec) (cu : Option (Graph ℕ)) : Graph ℕ :=
  let ns := n.resolve
  let G := empty_graph n cu
  let G : Graph ℕ := ⟨G.directed, G.multi, G.nodes, G.edges, "complete_graph(" ++ n.reprPy ++ ")"⟩
  if ns.length > 1 then
    if G.directed then G.addEdges (perm2 ns) else G.addEdges (comb2 ns)
  else G

/-- `star_graph(n, create_using)` from the source.  For an integer argument
the node `n` is appended after `range(n)`; `first = nodes[0]` is read before
`empty_graph` runs; the directed check happens only after `empty_graph` has
cleared and repopulated the container.  On error the payload carries the
state of the caller-supplied container at raise time (`none` when no
container was supplied). -/
def starCore (nameArg : String) (ns : List ℕ) (cu : Option (Graph ℕ)) :
    Except (String × Option (Graph ℕ)) (Graph ℕ) :=
  match ns with
  | [] => .error (indexErrorMsg, cu)
  | first :: rest =>
    let G := emptyCore (pyListRepr (first :: rest)) (first :: rest) cu
    if G.directed then .error (directedErrorMsg, cu.map (fun _ => G))
    else
      let G := G.addEdges (rest.map (fun v => (first, v)))
      .ok ⟨G.directed, G.multi, G.nodes, G.edges, "star_graph(" ++ nameArg ++ ")"⟩

def star_graph (n : NodeSpec) (cu : Option (Graph ℕ)) :
    Except (String × Option (Graph ℕ)) (Graph ℕ) :=
  match n with
  | .int k => starCore (Nat.repr k) (List.range k ++ [k]) cu
  | .nodes l => starCore (pyListRepr l) l cu

/-- `cycle_graph(n, create_using)` from the source: path edges via
`pairwise(nodes)`, then the closing edge `add_edge(nodes[-1], nodes[0])`,
which raises IndexError when the resolved node sequence is empty. -/
def cycle_graph (n : NodeSpec) (cu : Option (Graph ℕ)) : Except String (Graph ℕ) :=
  let ns := n.resolve
  let G := emptyCore (pyListRepr ns) ns cu
  let G : Graph ℕ := ⟨G.directed, G.multi, G.nodes, G.edges, "cycle_graph(" ++ n.reprPy ++ ")"⟩
  let G := G.addEdges (pairwiseL ns)
  match ns.getLast?, ns.head? with
  | some a, some b => .ok (G.addEdge a b)
  | _, _ => .error indexErrorMsg

/-- Python `%` of an int by a positive int (always non-negative). -/
def pymod (a : Int) (n : ℕ) : ℕ := (a % (n : Int)).toNat

/-- `circulant_graph(n, offsets, create_using)` from the source: for each
`i` in `range(n)` and each offset `j`, the edges `(i, (i-j)%n)` and
`(i, (i+j)%n)`. -/
def circulant_graph (n : ℕ) (offsets : List Int) (cu : Option (Graph ℕ)) : Graph ℕ :=
  let G := empty_graph (.int n) cu
  let G : Graph ℕ := ⟨G.directed, G.multi, G.nodes, G.edges,
    "circulant_graph(" ++ Nat.repr n ++ commaSpace ++ "[" ++
      String.intercalate commaSpace (offsets.map (fun j => toString j)) ++ "])"⟩
  (List.range n).foldl
    (fun g i => offsets.foldl
      (fun g j => (g.addEdge i (pymod ((i : Int) - j) n)).addEdge i (pymod ((i : Int) + j) n))
      g)
    G

/-- `barbell_graph(m1, m2, create_using)` from the source.  The `m2 < 0`
check is vacuous over `ℕ`.  Validation happens before any mutation here. -/
def barbell_graph (m1 m2 : ℕ) (cu : Option (Graph ℕ)) : Except String (Graph ℕ) :=
  if cuDir cu then .error directedErrorMsg
  else if m1 < 2 then .error barbellM1ErrorMsg
  else
    let G := complete_graph (.int m1) cu
    let G : Graph ℕ := ⟨G.directed, G.multi, G.nodes, G.edges,
      "barbell_graph(" ++ Nat.repr m1 ++ "," ++ Nat.repr m2 ++ ")"⟩
    let G := G.addNodes (List.range' m1 (m2 - 1))
    let G := if m2 > 1 then G.addEdges (pairwiseL (List.range' m1 m2)) else G
    let G := G.addEdges ((List.range' (m1 + m2) m1).flatMap
      (fun u => (List.range' (u + 1) (2 * m1 + m2 - (u + 1))).map (fun v => (u, v))))
    let G := G.addEdge (m1 - 1) m1
    let G := if m2 > 0 then G.addEdge (m1 + m2 - 1) (m1 + m2) else G
    .ok G

/-- `ladder_graph(n, create_using)` from the source (note the underscore in
the name format `"ladder_graph_(%d)"`). -/
def ladder_graph (n : ℕ) (cu : Option (Graph ℕ)) : Except String (Graph ℕ) :=
  if cuDir cu then .error directedErrorMsg
  else
    let G := empty_graph (.int (2 * n)) cu
    let G : Graph ℕ := ⟨G.directed, G.multi, G.nodes, G.edges,
      "ladder_graph_(" ++ Nat.repr n ++ ")"⟩
    let G := G.addEdges (pairwiseL (List.range n))
    let G := G.addEdges (pairwiseL (List.range' n n))
    let G := G.addEdges ((List.range n).map (fun v => (v, v + n)))
    .ok G

/-- One generation of the Dorogovtsev-Goltsev-Mendes construction: iterate
over the snapshot of the current edge list, adding for each prior edge a new
node joined to both endpoints. -/
def dgmInner (g : Graph ℕ) (newNode : ℕ) : Graph ℕ × ℕ :=
  g.edges.foldl (fun p e => (((p.1.addEdge p.2 e.1).addEdge p.2 e.2), p.2 + 1)) (g, newNode)

/-- The generation loop `for i in range(1, n + 1)` of
`dorogovtsev_goltsev_mendes_graph`. -/
def dgmLoop : ℕ → Graph ℕ × ℕ → Graph ℕ × ℕ
  | 0, p => p
  | k + 1, p => dgmLoop k (dgmInner p.1 p.2)

/-- Body of `dorogovtsev_goltsev_mendes_graph` after the variant checks. -/
def dgmBody (n : ℕ) (cu : Option (Graph ℕ)) : Graph ℕ :=
  let G := empty_graph (.int 0) cu
  let G : Graph ℕ := ⟨G.directed, G.multi, G.nodes, G.edges, "Dorogovtsev-Goltsev-Mendes Graph"⟩
  let G := G.addEdge 0 1
  if n = 0 then G else (dgmLoop n (G, 2)).1

/-- `dorogovtsev_goltsev_mendes_graph(n, create_using)` from the source:
directed and multigraph containers are rejected before any mutation. -/
def dorogovtsev_goltsev_mendes_graph (n : ℕ) (cu : Option (Graph ℕ)) :
    Except String (Graph ℕ) :=
  if cuDir cu then .error directedErrorMsg
  else if cuMulti cu then .error multigraphErrorMsg
  else .ok (dgmBody n cu)

/-- The node blocks of `complete_multipartite_graph` for integer block
sizes: `extents = pairwise(accumulate((0,) + block_sizes))` and
`blocks = [range(start, end) for start, end in extents]`. -/
def cmgBlocks (sizes : List ℕ) : List (List ℕ) :=
  (pairwiseL (0 :: accumulate sizes)).map (fun p => List.range' p.1 (p.2 - p.1))

/-- The cross-block edge list of `complete_multipartite_graph`:
`itertools.product(block1, block2)` for each
`block1, block2 in itertools.combinations(blocks, 2)`. -/
def cmgPairs (sizes : List ℕ) : List (ℕ × ℕ) :=
  (comb2 (cmgBlocks sizes)).flatMap (fun bp => bp.1.flatMap (fun u => bp.2.map (fun v => (u, v))))

/-- `complete_multipartite_graph(*block_sizes)` from the source, for integer
block sizes: always a fresh `nx.Graph()` (there is no `create_using`
parameter), with the misspelled name `'complete_multiparite_graph' +
str(block_sizes)`.  The per-node `block` attribute is not modelled (no claim
mentions it). -/
def complete_multipartite_graph (sizes : List ℕ) : Graph ℕ :=
  let G : Graph ℕ := ⟨false, false, [], [],
    "complete_multiparite_graph" ++ pyTupleRepr sizes⟩
  if sizes.isEmpty then G
  else
    let G := G.addNodes (cmgBlocks sizes).flatten
    G.addEdges (cmgPairs sizes)

/-- The partition sizes computed by `turan_graph`:
`[n//r]*(r-(n%r)) + [n//r+1]*(n%r)`. -/
def turanPartitions (n r : ℕ) : List ℕ :=
  List.replicate (r - n % r) (n / r) ++ List.replicate (n % r) (n / r + 1)

/-- `turan_graph(n, r)` from the source.  The `isinstance(_, int)` check is
vacuous over `ℕ`; there is no `create_using` parameter. -/
def turan_graph (n r : ℕ) : Except String (Graph ℕ) :=
  if 1 ≤ r ∧ r ≤ n then
    let G := complete_multipartite_graph (turanPartitions n r)
    .ok ⟨G.directed, G.multi, G.nodes, G.edges,
      "turan_graph(" ++ Nat.repr n ++ "," ++ Nat.repr r ++ ")"⟩
  else .error turanRangeErrorMsg

/-- `grid_2d_graph(m, n, periodic, create_using)` from the source.  Nodes
are coordinate pairs; row edges come from `pairwise(rows)`, column edges
from `pairwise(columns)`; a directed container receives the reverse edges
explicitly; with `periodic`, wrap edges are added per dimension only when
its length exceeds 2, and the name is rebuilt from the decorated argument
tuples (as in the source). -/
def grid_2d_graph (m n : NodeSpec) (periodic : Bool) (cu : Option (Graph (ℕ × ℕ))) :
    Graph (ℕ × ℕ) :=
  let G := emptyCore (Nat.repr 0) ([] : List (ℕ × ℕ)) cu
  let rows := m.resolve
  let cols := n.resolve
  let G : Graph (ℕ × ℕ) := ⟨G.directed, G.multi, G.nodes, G.edges,
    "grid_2d_graph(" ++ m.reprPy ++ commaSpace ++ n.reprPy ++ ")"⟩
  let G := G.addNodes (rows.flatMap (fun i => cols.map (fun j => (i, j))))
  let G := G.addEdges ((pairwiseL rows).flatMap (fun p => cols.map (fun j => ((p.2, j), (p.1, j)))))
  let G := G.addEdges (rows.flatMap (fun i => (pairwiseL cols).map (fun q => ((i, q.2), (i, q.1)))))
  let G := if G.directed then
      let G := G.addEdges ((pairwiseL rows).flatMap (fun p => cols.map (fun j => ((p.1, j), (p.2, j)))))
      G.addEdges (rows.flatMap (fun i => (pairwiseL cols).map (fun q => ((i, q.1), (i, q.2)))))
    else G
  if periodic then
    let G := if cols.length > 2 then
        let f := cols.headD 0
        let l := cols.getLastD 0
        let G := G.addEdges (rows.map (fun i => ((i, f), (i, l))))
        if G.directed then G.addEdges (rows.map (fun i => ((i, l), (i, f)))) else G
      else G
    let G := if rows.length > 2 then
        let f := rows.headD 0
        let l := rows.getLastD 0
        let G := G.addEdges (cols.map (fun j => ((f, j), (l, j))))
        if G.directed then G.addEdges (cols.map (fun j => ((l, j), (f, j)))) else G
      else G
    ⟨G.directed, G.multi, G.nodes, G.edges,
      "periodic_grid_2d_graph(" ++ m.tupleRepr ++ "," ++ n.tupleRepr ++ ")"⟩
  else G

/-- The node tuples of the n-dimensional grid, in lexicographic (product)
order. -/
def gridNodes (dims : List ℕ) : List (List ℕ) :=
  dims.foldr (fun d acc => (List.range d).flatMap (fun i => acc.map (fun t => i :: t))) [[]]

/-- Adjacency of two grid tuples: equal except in one coordinate, where they
are path-adjacent, or (for a periodic dimension of length above 2)
wrap-adjacent. -/
def gridAdjB (periodic : Bool) : List ℕ → List ℕ → List ℕ → Bool
  | d :: ds, x :: xs, y :: ys =>
      (decide (x = y) && gridAdjB periodic ds xs ys) ||
      (decide (xs = ys) && ((decide (x + 1 = y) || decide (y + 1 = x)) ||
        (periodic && decide (2 < d) &&
          (decide (x = 0 ∧ y = d - 1) || decide (y = 0 ∧ x = d - 1)))))
  | _, _, _ => false

/-- Modelled from the spec: `grid_graph` composes `nx.cartesian_product`
(iterated over the dimensions, over `path_graph` or, if periodic,
`cycle_graph`) and `nx.relabel_nodes(_, flatten)`, two library calls outside
this module (spec §1 lists them as out of scope; §4.3: iterated cartesian
product of path/cycle graphs, then flatten composite tuple labels).  The
composite is embedded directly: nodes are the coordinate tuples, two tuples
are adjacent when they agree except in one path-adjacent (or wrap-adjacent,
for a periodic dimension of length above 2) coordinate, and the result is a
fresh simple undirected graph — there is no `create_using` parameter.  For
`dim == []` the source returns `empty_graph(0)`. -/
def grid_graph (dims : List ℕ) (periodic : Bool) : Graph (List ℕ) :=
  if dims.isEmpty then ⟨false, false, [], [], "grid_graph(" ++ pyListRepr dims ++ ")"⟩
  else
    ⟨false, false, gridNodes dims,
      (comb2 (gridNodes dims)).filter (fun p => gridAdjB periodic dims p.1 p.2),
      "grid_graph(" ++ pyListRepr dims ++ ")"⟩

/-- `hypercube_graph(n)` from the source: `grid_graph(n * [2])` renamed with
the underscore format `"hypercube_graph_(%d)"`; no `create_using`
parameter. -/
def hypercube_graph (n : ℕ) : Graph (List ℕ) :=
  let G := grid_graph (List.replicate n 2) false
  ⟨G.directed, G.multi, G.nodes, G.edges, "hypercube_graph_(" ++ Nat.repr n ++ ")"⟩

def typeErrorMsg : String := "TypeError: got an unexpected keyword argument create_using"

/-- Calling `turan_graph` with a `create_using` keyword argument: the source
signature `def turan_graph(n, r)` has no such parameter and no `**kwargs`,
so Python raises TypeError before the body runs. -/
def turan_graph_call (n r : ℕ) (cu : Option (Graph ℕ)) : Except String (Graph ℕ) :=
  match cu with
  | some _ => .error typeErrorMsg
  | none => turan_graph n r

/-- Calling `complete_multipartite_graph` with a `create_using` keyword
argument: the source signature `def complete_multipartite_graph(*block_sizes)`
accepts no keyword arguments, so Python raises TypeError. -/
def complete_multipartite_graph_call (sizes : List ℕ) (cu : Option (Graph ℕ)) :
    Except String (Graph ℕ) :=
  match cu with
  | some _ => .error typeErrorMsg
  | none => .ok (complete_multipartite_graph sizes)

/-- Calling `grid_graph` with a `create_using` keyword argument: the source
signature `def grid_graph(dim, periodic=False)` has no such parameter, so
Python raises TypeError. -/
def grid_graph_call (dims : List ℕ) (periodic : Bool) (cu : Option (Graph (List ℕ))) :
    Except String (Graph (List ℕ)) :=
  match cu with
  | some _ => .error typeErrorMsg
  | none => .ok (grid_graph dims periodic)

/-- Calling `hypercube_graph` with a `create_using` keyword argument: the
source signature `def hypercube_graph(n)` has no such parameter, so Python
raises TypeError. -/
def hypercube_graph_call (n : ℕ) (cu : Option (Graph (List ℕ))) :
    Except String (Graph (List ℕ)) :=
  match cu with
  | some _ => .error typeErrorMsg
  | none => .ok (hypercube_graph n)

def containerName : String := "box"

/-- A concrete caller-supplied directed container with prior content. -/
def cDir : Graph ℕ := ⟨true, false, [7, 8], [(7, 8)], containerName⟩

/-- The state `cDir` is left in by `star_graph(3, create_using=cDir)` at the
moment the raise happens: cleared, renamed by `empty_graph`, and
repopulated with the four star nodes and no edges. -/
def cDirMut : Graph ℕ := ⟨true, false, [0, 1, 2, 3], [],
  "empty_graph(" ++ pyListRepr [0, 1, 2, 3] ++ ")"⟩

/-- A concrete caller-supplied simple undirected container. -/
def cPlain : Graph ℕ := ⟨false, false, [5], [], containerName⟩

/-- The sum of pairwise products of a list, one term per unordered pair of
positions: the edge count of a complete multipartite graph with these block
sizes. -/
def pairsSum : List ℕ → ℕ
  | [] => 0
  | a :: l => a * l.sum + pairsSum l

/-- The row edges of `grid_2d_graph(m, n)` on integer specs, in emission
order: `((k+1, j), (k, j))` for consecutive row pairs `(k, k+1)`. -/
def reList (m n : ℕ) : List ((ℕ × ℕ) × (ℕ × ℕ)) :=
  (List.range (m - 1)).flatMap (fun k => (List.range n).map (fun j => ((k + 1, j), (k, j))))

/-- The column edges of `grid_2d_graph(m, n)` on integer specs. -/
def ceList (m n : ℕ) : List ((ℕ × ℕ) × (ℕ × ℕ)) :=
  (List.range m).flatMap (fun i => (List.range (n - 1)).map (fun k => ((i, k + 1), (i, k))))

/-- The periodic column wrap edges of `grid_2d_graph(m, n)`. -/
def wcList (m n : ℕ) : List ((ℕ × ℕ) × (ℕ × ℕ)) :=
  (List.range m).map (fun i => ((i, 0), (i, n - 1)))

/-- The periodic row wrap edges of `grid_2d_graph(m, n)`. -/
def wrList (m n : ℕ) : List ((ℕ × ℕ) × (ℕ × ℕ)) :=
  (List.range n).map (fun j => ((0, j), (m - 1, j)))

/-- The node list of `grid_2d_graph(m, n)` on integer specs. -/
def gridNodesList (m n : ℕ) : List (ℕ × ℕ) :=
  (List.range m).flatMap (fun i => (List.range n).map (fun j => (i, j)))

/-! Basic facts about the container operations. -/

variable {α : Type} [DecidableEq α]

@[simp] theorem addNode_directed (g : Graph α) (v : α) :
    (g.addNode v).directed = g.directed := by
  unfold Graph.addNode; split <;> rfl

@[simp] theorem addNode_multi (g : Graph α) (v : α) :
    (g.addNode v).multi = g.multi := by
  unfold Graph.addNode; split <;> rfl

@[simp] theorem addNode_name (g : Graph α) (v : α) :
    (g.addNode v).name = g.name := by
  unfold Graph.addNode; split <;> rfl

@[simp] theorem addNode_edges (g : Graph α) (v : α) :
    (g.addNode v).edges = g.edges := by
  unfold Graph.addNode; split <;> rfl

theorem mem_addNode_nodes (g : Graph α) (v w : α) :
    w ∈ (g.addNode v).nodes ↔ w ∈ g.nodes ∨ w = v := by
  unfold Graph.addNode
  split
  · next h =>
    constructor
    · exact Or.inl
    · rintro (hw | rfl)
      · exact hw
      · exact h
  · simp

theorem addNode_nodes_of_mem (g : Graph α) (v : α) (h : v ∈ g.nodes) :
    g.addNode v = g := by
  unfold Graph.addNode
  simp [h]

theorem addNode_nodes_of_not_mem (g : Graph α) (v : α) (h : v ∉ g.nodes) :
    (g.addNode v).nodes = g.nodes ++ [v] := by
  unfold Graph.addNode
  simp [h]

theorem addNode_nodup (g : Graph α) (v : α) (h : g.nodes.Nodup) :
    (g.addNode v).nodes.Nodup := by
  unfold Graph.addNode
  split
  · exact h
  · next hv => simpa [List.nodup_append] using ⟨h, hv⟩

@[simp] theorem addNodes_directed (g : Graph α) (vs : List α) :
    (g.addNodes vs).directed = g.directed := by
  induction vs generalizing g with
  | nil => rfl
  | cons v vs ih => simpa [Graph.addNodes, List.foldl_cons] using ih (g.addNode v)

@[simp] theorem addNodes_multi (g : Graph α) (vs : List α) :
    (g.addNodes vs).multi = g.multi := by
  induction vs generalizing g with
  | nil => rfl
  | cons v vs ih => simpa [Graph.addNodes, List.foldl_cons] using ih (g.addNode v)

@[simp] theorem addNodes_name (g : Graph α) (vs : List α) :
    (g.addNodes vs).name = g.name := by
  induction vs generalizing g with
  | nil => rfl
  | cons v vs ih => simpa [Graph.addNodes, List.foldl_cons] using ih (g.addNode v)

@[simp] theorem addNodes_edges (g : Graph α) (vs : List α) :
    (g.addNodes vs).edges = g.edges := by
  induction vs generalizing g with
  | nil => rfl
  | cons v vs ih => simpa [Graph.addNodes, List.foldl_cons] using ih (g.addNode v)

theorem mem_addNodes_nodes (g : Graph α) (vs : List α) (w : α) :
    w ∈ (g.addNodes vs).nodes ↔ w ∈ g.nodes ∨ w ∈ vs := by
  induction vs generalizing g with
  | nil => simp [Graph.addNodes]
  | cons v vs ih =>
    show w ∈ ((g.addNode v).addNodes vs).nodes ↔ _
    rw [ih, mem_addNode_nodes, List.mem_cons]
    tauto

theorem addNodes_nodup (g : Graph α) (vs : List α) (h : g.nodes.Nodup) :
    (g.addNodes vs).nodes.Nodup := by
  induction vs generalizing g with
  | nil => exact h
  | cons v vs ih => exact ih (g.addNode v) (addNode_nodup g v h)

theorem addNodes_nodes_fresh (g : Graph α) (vs : List α) (hd : vs.Nodup)
    (hf : ∀ v ∈ vs, v ∉ g.nodes) :
    (g.addNodes vs).nodes = g.nodes ++ vs := by
  induction vs generalizing g with
  | nil => simp [Graph.addNodes]
  | cons v vs ih =>
    show ((g.addNode v).addNodes vs).nodes = _
    have hv : v ∉ g.nodes := hf v (List.mem_cons_self v vs)
    have step : (g.addNode v).nodes = g.nodes ++ [v] := addNode_nodes_of_not_mem g v hv
    have hf' : ∀ x ∈ vs, x ∉ (g.addNode v).nodes := by
      intro x hx hmem
      rw [step] at hmem
      rcases List.mem_append.mp hmem with hmem | hmem
      · exact hf x (List.mem_cons_of_mem v hx) hmem
      · rcases List.mem_singleton.mp hmem with rfl
        exact (List.nodup_cons.mp hd).1 hx
    rw [ih (g.addNode v) hd.of_cons hf', step, List.append_assoc, List.singleton_append]

@[simp] theorem addEdge_directed (g : Graph α) (u v : α) :
    (g.addEdge u v).directed = g.directed := by
  simp only [Graph.addEdge]
  split_ifs <;> simp

@[simp] theorem addEdge_multi (g : Graph α) (u v : α) :
    (g.addEdge u v).multi = g.multi := by
  simp only [Graph.addEdge]
  split_ifs <;> simp

@[simp] theorem addEdge_name (g : Graph α) (u v : α) :
    (g.addEdge u v).name = g.name := by
  simp only [Graph.addEdge]
  split_ifs <;> simp

theorem addEdge_edges_multi (g : Graph α) (u v : α) (h : g.multi = true) :
    (g.addEdge u v).edges = g.edges ++ [(u, v)] := by
  unfold Graph.addEdge
  simp [h]

theorem addEdge_edges_new_undir (g : Graph α) (u v : α) (hm : g.multi = false)
    (hd : g.directed = false) (h1 : (u, v) ∉ g.edges) (h2 : (v, u) ∉ g.edges) :
    (g.addEdge u v).edges = g.edges ++ [(u, v)] := by
  unfold Graph.addEdge
  simp [hm, hd, h1, h2]

theorem addEdge_edges_dup_undir (g : Graph α) (u v : α) (hm : g.multi = false)
    (hd : g.directed = false) (h : (u, v) ∈ g.edges ∨ (v, u) ∈ g.edges) :
    (g.addEdge u v).edges = g.edges := by
  unfold Graph.addEdge
  simp only [hm, hd, Bool.false_eq_true, if_false]
  rw [if_pos h]
  simp

theorem addEdge_edges_new_dir (g : Graph α) (u v : α) (hm : g.multi = false)
    (hd : g.directed = true) (h : (u, v) ∉ g.edges) :
    (g.addEdge u v).edges = g.edges ++ [(u, v)] := by
  unfold Graph.addEdge
  simp [hm, hd, h]

theorem mem_addEdge_nodes (g : Graph α) (u v w : α) :
    w ∈ (g.addEdge u v).nodes ↔ w ∈ g.nodes ∨ w = u ∨ w = v := by
  have core : w ∈ ((g.addNode u).addNode v).nodes ↔ w ∈ g.nodes ∨ w = u ∨ w = v := by
    rw [mem_addNode_nodes, mem_addNode_nodes]
    tauto
  simp only [Graph.addEdge]
  split_ifs <;> simpa using core

theorem addEdge_nodes_of_mem (g : Graph α) (u v : α) (hu : u ∈ g.nodes)
    (hv : v ∈ g.nodes) : (g.addEdge u v).nodes = g.nodes := by
  have core : ((g.addNode u).addNode v).nodes = g.nodes := by
    rw [addNode_nodes_of_mem g u hu]
    rw [addNode_nodes_of_mem g v hv]
  simp only [Graph.addEdge]
  split_ifs <;> simpa using core

theorem addEdge_nodup (g : Graph α) (u v : α) (h : g.nodes.Nodup) :
    (g.addEdge u v).nodes.Nodup := by
  have core : ((g.addNode u).addNode v).nodes.Nodup :=
    addNode_nodup _ v (addNode_nodup g u h)
  simp only [Graph.addEdge]
  split_ifs <;> simpa using core

@[simp] theorem addEdges_directed (g : Graph α) (ps : List (α × α)) :
    (g.addEdges ps).directed = g.directed := by
  induction ps generalizing g with
  | nil => rfl
  | cons p ps ih =>
    show ((g.addEdge p.1 p.2).addEdges ps).directed = _
    rw [ih, addEdge_directed]

@[simp] theorem addEdges_multi (g : Graph α) (ps : List (α × α)) :
    (g.addEdges ps).multi = g.multi := by
  induction ps generalizing g with
  | nil => rfl
  | cons p ps ih =>
    show ((g.addEdge p.1 p.2).addEdges ps).multi = _
    rw [ih, addEdge_multi]

@[simp] theorem addEdges_name (g : Graph α) (ps : List (α × α)) :
    (g.addEdges ps).name = g.name := by
  induction ps generalizing g with
  | nil => rfl
  | cons p ps ih =>
    show ((g.addEdge p.1 p.2).addEdges ps).name = _
    rw [ih, addEdge_name]

theorem mem_addEdges_nodes (g : Graph α) (ps : List (α × α)) (w : α) :
    w ∈ (g.addEdges ps).nodes ↔ w ∈ g.nodes ∨ ∃ p ∈ ps, w = p.1 ∨ w = p.2 := by
  induction ps generalizing g with
  | nil => simp [Graph.addEdges]
  | cons p ps ih =>
    show w ∈ ((g.addEdge p.1 p.2).addEdges ps).nodes ↔ _
    rw [ih, mem_addEdge_nodes]
    simp only [List.mem_cons]
    constructor
    · rintro ((h | h | h) | ⟨q, hq, hw⟩)
      · exact Or.inl h
      · exact Or.inr ⟨p, Or.inl rfl, Or.inl h⟩
      · exact Or.inr ⟨p, Or.inl rfl, Or.inr h⟩
      · exact Or.inr ⟨q, Or.inr hq, hw⟩
    · rintro (h | ⟨q, hq | hq, hw⟩)
      · exact Or.inl (Or.inl h)
      · subst hq; exact Or.inl (Or.inr hw)
      · exact Or.inr ⟨q, hq, hw⟩

theorem addEdges_nodes_of_mem (g : Graph α) (ps : List (α × α))
    (h : ∀ p ∈ ps, p.1 ∈ g.nodes ∧ p.2 ∈ g.nodes) :
    (g.addEdges ps).nodes = g.nodes := by
  induction ps generalizing g with
  | nil => rfl
  | cons p ps ih =>
    show ((g.addEdge p.1 p.2).addEdges ps).nodes = _
    have hp := h p (List.mem_cons_self p ps)
    have step : (g.addEdge p.1 p.2).nodes = g.nodes :=
      addEdge_nodes_of_mem g p.1 p.2 hp.1 hp.2
    rw [ih (g.addEdge p.1 p.2) ?f, step]
    case f =>
      intro q hq
      rw [step]
      exact h q (List.mem_cons_of_mem p hq)

theorem addEdges_nodup (g : Graph α) (ps : List (α × α)) (h : g.nodes.Nodup) :
    (g.addEdges ps).nodes.Nodup := by
  induction ps generalizing g with
  | nil => exact h
  | cons p ps ih => exact ih (g.addEdge p.1 p.2) (addEdge_nodup g p.1 p.2 h)

theorem addEdges_edges_multi (g : Graph α) (ps : List (α × α)) (h : g.multi = true) :
    (g.addEdges ps).edges = g.edges ++ ps := by
  induction ps generalizing g with
  | nil => simp [Graph.addEdges]
  | cons p ps ih =>
    show ((g.addEdge p.1 p.2).addEdges ps).edges = _
    rw [ih (g.addEdge p.1 p.2) (by rw [addEdge_multi]; exact h),
      addEdge_edges_multi g p.1 p.2 h, List.append_assoc, List.singleton_append]

/-- Adding a list of pairwise unordered-distinct edges, none of which is
present in a simple undirected graph, appends them all. -/
theorem addEdges_edges_fresh_undir (g : Graph α) (ps : List (α × α))
    (hm : g.multi = false) (hd : g.directed = false)
    (hfresh : ∀ p ∈ ps, p ∉ g.edges ∧ p.swap ∉ g.edges)
    (hpw : ps.Pairwise (fun p q => q ≠ p ∧ q ≠ p.swap)) :
    (g.addEdges ps).edges = g.edges ++ ps := by
  induction ps generalizing g with
  | nil => simp [Graph.addEdges]
  | cons p ps ih =>
    show ((g.addEdge p.1 p.2).addEdges ps).edges = _
    have hp := hfresh p (List.mem_cons_self p ps)
    have hswap : (p.2, p.1) = p.swap := rfl
    have step : (g.addEdge p.1 p.2).edges = g.edges ++ [p] := by
      have := addEdge_edges_new_undir g p.1 p.2 hm hd
      rw [show ((p.1 : α), (p.2 : α)) = p from rfl] at this
      rw [hswap] at this
      exact this hp.1 hp.2
    have hpairs := List.pairwise_cons.mp hpw
    rw [ih (g.addEdge p.1 p.2) (by rw [addEdge_multi]; exact hm)
      (by rw [addEdge_directed]; exact hd) ?fr ?pw, step,
      List.append_assoc, List.singleton_append]
    case fr =>
      intro q hq
      rw [step]
      have hf := hfresh q (List.mem_cons_of_mem p hq)
      have hne := hpairs.1 q hq
      constructor
      · intro hmem
        rcases List.mem_append.mp hmem with hmem | hmem
        · exact hf.1 hmem
        · exact hne.1 (List.mem_singleton.mp hmem)
      · intro hmem
        rcases List.mem_append.mp hmem with hmem | hmem
        · exact hf.2 hmem
        · have : q.swap = p := List.mem_singleton.mp hmem
          exact hne.2 (by rw [← this, Prod.swap_swap])
    case pw => exact hpairs.2

/-- Adding a list of pairwise distinct edges, none of which is present in a
simple directed graph, appends them all. -/
theorem addEdges_edges_fresh_dir (g : Graph α) (ps : List (α × α))
    (hm : g.multi = false) (hd : g.directed = true)
    (hfresh : ∀ p ∈ ps, p ∉ g.edges)
    (hpw : ps.Pairwise (fun p q => q ≠ p)) :
    (g.addEdges ps).edges = g.edges ++ ps := by
  induction ps generalizing g with
  | nil => simp [Graph.addEdges]
  | cons p ps ih =>
    show ((g.addEdge p.1 p.2).addEdges ps).edges = _
    have hp := hfresh p (List.mem_cons_self p ps)
    have step : (g.addEdge p.1 p.2).edges = g.edges ++ [p] := by
      have := addEdge_edges_new_dir g p.1 p.2 hm hd
      rw [show ((p.1 : α), (p.2 : α)) = p from rfl] at this
      exact this hp
    have hpairs := List.pairwise_cons.mp hpw
    rw [ih (g.addEdge p.1 p.2) (by rw [addEdge_multi]; exact hm)
      (by rw [addEdge_directed]; exact hd) ?fr ?pw, step,
      List.append_assoc, List.singleton_append]
    case fr =>
      intro q hq
      rw [step]
      intro hmem
      rcases List.mem_append.mp hmem with hmem | hmem
      · exact hfresh q (List.mem_cons_of_mem p hq) hmem
      · exact hpairs.1 q hq (List.mem_singleton.mp hmem)
    case pw => exact hpairs.2

/-! Facts about `comb2`, `idxPairs` and `perm2`. -/

theorem comb2_mem {β : Type} (l : List β) (p : β × β) (h : p ∈ comb2 l) :
    p.1 ∈ l ∧ p.2 ∈ l := by
  induction l with
  | nil => simp [comb2] at h
  | cons a l ih =>
    rcases List.mem_append.mp h with h | h
    · rcases List.mem_map.mp h with ⟨b, hb, rfl⟩
      exact ⟨List.mem_cons_self a l, List.mem_cons_of_mem a hb⟩
    · have := ih h
      exact ⟨List.mem_cons_of_mem a this.1, List.mem_cons_of_mem a this.2⟩

theorem comb2_length {β : Type} (l : List β) :
    2 * (comb2 l).length = l.length * (l.length - 1) := by
  induction l with
  | nil => simp [comb2]
  | cons a l ih =>
    simp only [comb2, List.length_append, List.length_map, List.length_cons]
    have key : ∀ k C : ℕ, 2 * C = k * (k - 1) → 2 * (k + C) = (k + 1) * (k + 1 - 1) := by
      intro k C h
      cases k with
      | zero => omega
      | succ m =>
        rw [Nat.add_sub_cancel] at *
        calc 2 * (m + 1 + C) = 2 * (m + 1) + 2 * C := by ring
          _ = 2 * (m + 1) + (m + 1) * m := by rw [h]
          _ = (m + 1 + 1) * (m + 1) := by ring
    exact key l.length (comb2 l).length ih

theorem comb2_rel {β : Type} (R : β → β → Prop) (l : List β) (h : l.Pairwise R) :
    ∀ p ∈ comb2 l, R p.1 p.2 := by
  induction l with
  | nil => simp [comb2]
  | cons a l ih =>
    have hc := List.pairwise_cons.mp h
    intro p hp
    rcases List.mem_append.mp hp with hp | hp
    · rcases List.mem_map.mp hp with ⟨b, hb, rfl⟩
      exact hc.1 b hb
    · exact ih hc.2 p hp

theorem comb2_pairwise {β : Type} (R : β → β → Prop) (l : List β) (h : l.Pairwise R) :
    (comb2 l).Pairwise
      (fun p q => (p.1 = q.1 ∧ R p.2 q.2) ∨ (R p.1 q.1 ∧ R p.1 q.2)) := by
  induction l with
  | nil => simp [comb2]
  | cons a l ih =>
    have hc := List.pairwise_cons.mp h
    show List.Pairwise _ (l.map (fun b => (a, b)) ++ comb2 l)
    rw [List.pairwise_append]
    refine ⟨?_, ih hc.2, ?_⟩
    · rw [List.pairwise_map]
      exact hc.2.imp (fun hxy => Or.inl ⟨rfl, hxy⟩)
    · intro x hx y hy
      rcases List.mem_map.mp hx with ⟨b, hb, rfl⟩
      have hy' := comb2_mem l y hy
      exact Or.inr ⟨hc.1 y.1 hy'.1, hc.1 y.2 hy'.2⟩

/-- Over a strictly sorted list, the `comb2` pairs are fresh relative to one
another: no later pair equals an earlier pair or its swap. -/
theorem comb2_fresh_sorted (l : List ℕ) (h : l.Pairwise (· < ·)) :
    (comb2 l).Pairwise (fun p q => q ≠ p ∧ q ≠ p.swap) := by
  have hS := comb2_pairwise (· < ·) l h
  have hR := comb2_rel (· < ·) l h
  refine hS.imp_of_mem ?_
  intro p q hp hq hpq
  have h1 : p.1 < p.2 := hR p hp
  have h2 : q.1 < q.2 := hR q hq
  constructor
  · rintro rfl
    rcases hpq with ⟨_, hlt⟩ | ⟨hlt, _⟩ <;> omega
  · rintro rfl
    simp only [Prod.fst_swap, Prod.snd_swap] at hpq h2
    rcases hpq with ⟨he, hlt⟩ | ⟨hlt, hlt'⟩ <;> omega

theorem comb2_range'_facts (s k : ℕ) :
    ∀ p ∈ comb2 (List.range' s k), s ≤ p.1 ∧ p.1 < p.2 ∧ p.2 < s + k := by
  intro p hp
  have hmem := comb2_mem (List.range' s k) p hp
  have h1 := List.mem_range'_1.mp hmem.1
  have h2 := List.mem_range'_1.mp hmem.2
  have h3 := comb2_rel (· < ·) (List.range' s k) (List.pairwise_lt_range' s k) p hp
  exact ⟨h1.1, h3, h2.2⟩

theorem filter_ne_range_length (n i : ℕ) (h : i < n) :
    ((List.range n).filter (fun j => decide (j ≠ i))).length = n - 1 := by
  induction n with
  | zero => omega
  | succ n ih =>
    rw [List.range_succ, List.filter_append, List.length_append]
    by_cases hi : i = n
    · subst hi
      have hall : (List.range i).filter (fun j => decide (j ≠ i)) = List.range i := by
        rw [List.filter_eq_self]
        intro a ha
        simp only [decide_eq_true_eq]
        exact Nat.ne_of_lt (List.mem_range.mp ha)
      have hone : List.filter (fun j => decide (j ≠ i)) [i] = [] := by simp
      rw [hall, hone]
      simp
    · have hin : i < n := by omega
      rw [ih hin]
      have : (List.filter (fun j => decide (j ≠ i)) [n]).length = 1 := by
        simp [Ne.symm hi]
      rw [this]
      omega

theorem idxPairs_mem (n : ℕ) (p : ℕ × ℕ) :
    p ∈ idxPairs n ↔ p.1 < n ∧ p.2 < n ∧ p.2 ≠ p.1 := by
  obtain ⟨i, j⟩ := p
  simp only [idxPairs, List.mem_flatMap, List.mem_map, List.mem_filter, List.mem_range,
    decide_eq_true_eq, Prod.mk.injEq]
  constructor
  · rintro ⟨a, ha, b, ⟨hb, hba⟩, rfl, rfl⟩
    exact ⟨ha, hb, hba⟩
  · rintro ⟨hi, hj, hji⟩
    exact ⟨i, hi, j, ⟨hj, hji⟩, rfl, rfl⟩

theorem idxPairs_length (n : ℕ) : (idxPairs n).length = n * (n - 1) := by
  rw [idxPairs, List.length_flatMap]
  have hconst : ∀ i ∈ List.range n,
      (List.length ∘ fun i =>
        ((List.range n).filter (fun j => decide (j ≠ i))).map (fun j => (i, j))) i = n - 1 := by
    intro i hi
    simp only [Function.comp_apply, List.length_map]
    exact filter_ne_range_length n i (List.mem_range.mp hi)
  rw [List.map_congr_left hconst]
  have : List.map (fun _ => n - 1) (List.range n) = List.replicate n (n - 1) := by
    rw [show (fun (_ : ℕ) => n - 1) = Function.const ℕ (n - 1) from rfl, List.map_const,
      List.length_range]
  rw [this, List.sum_replicate, smul_eq_mul]

theorem idxPairs_nodup (n : ℕ) : (idxPairs n).Nodup := by
  rw [idxPairs, List.nodup_flatMap]
  constructor
  · intro i hi
    refine List.Nodup.map ?_ (List.Nodup.filter _ (List.nodup_range n))
    intro a b hab
    simpa using congrArg Prod.snd hab
  · have : List.Pairwise (· ≠ ·) (List.range n) := List.nodup_range n
    refine this.imp ?_
    intro a b hab
    intro x hxa hxb
    rcases List.mem_map.mp hxa with ⟨j, _, rfl⟩
    rcases List.mem_map.mp hxb with ⟨j', _, he⟩
    exact hab (by simpa using (congrArg Prod.fst he).symm)

theorem perm2_range (n : ℕ) : perm2 (List.range n) = idxPairs n := by
  unfold perm2
  rw [List.length_range]
  have hid : ∀ p ∈ idxPairs n,
      ((List.range n).getD p.1 0, (List.range n).getD p.2 0) = p := by
    intro p hp
    have hm := (idxPairs_mem n p).mp hp
    rw [List.getD_eq_getElem?_getD, List.getElem?_range hm.1,
      List.getD_eq_getElem?_getD, List.getElem?_range hm.2.1]
    rfl
  calc (idxPairs n).map (fun p => ((List.range n).getD p.1 0, (List.range n).getD p.2 0))
      = (idxPairs n).map id := List.map_congr_left hid
    _ = idxPairs n := List.map_id _

/-! Facts about `emptyCore`, `empty_graph` and `complete_graph`. -/

theorem emptyCore_eq (label : String) (ns : List α) (cu : Option (Graph α))
    (hnd : ns.Nodup) :
    emptyCore label ns cu =
      ⟨cuDir cu, cuMulti cu, ns, [], "empty_graph(" ++ label ++ ")"⟩ := by
  have base : ∀ d m : Bool,
      Graph.addNodes (⟨d, m, [], [], "empty_graph(" ++ label ++ ")"⟩ : Graph α) ns =
        ⟨d, m, ns, [], "empty_graph(" ++ label ++ ")"⟩ := by
    intro d m
    ext1
    · rw [addNodes_directed]
    · rw [addNodes_multi]
    · have := addNodes_nodes_fresh (⟨d, m, [], [], "empty_graph(" ++ label ++ ")"⟩ : Graph α)
        ns hnd (by intro v hv; simp)
      simpa using this
    · rw [addNodes_edges]
    · rw [addNodes_name]
  cases cu with
  | none => exact base false false
  | some g => exact base g.directed g.multi

theorem mem_emptyCore_nodes (label : String) (ns : List α) (cu : Option (Graph α))
    (w : α) : w ∈ (emptyCore label ns cu).nodes ↔ w ∈ ns := by
  cases cu with
  | none =>
    show w ∈ (Graph.addNodes _ ns).nodes ↔ _
    rw [mem_addNodes_nodes]
    simp [Graph.fresh]
  | some g =>
    show w ∈ (Graph.addNodes _ ns).nodes ↔ _
    rw [mem_addNodes_nodes]
    simp [Graph.clear]

theorem emptyCore_nodup (label : String) (ns : List α) (cu : Option (Graph α)) :
    (emptyCore label ns cu).nodes.Nodup := by
  cases cu with
  | none => exact addNodes_nodup _ ns (by simp [Graph.fresh])
  | some g => exact addNodes_nodup _ ns (by simp [Graph.clear])

theorem empty_graph_int_eq (n : ℕ) (cu : Option (Graph ℕ)) :
    empty_graph (.int n) cu =
      ⟨cuDir cu, cuMulti cu, List.range n, [], "empty_graph(" ++ Nat.repr n ++ ")"⟩ :=
  emptyCore_eq _ _ cu (List.nodup_range n)

theorem complete_graph_int_base (n : ℕ) (cu : Option (Graph ℕ)) :
    (complete_graph (.int n) cu).directed = cuDir cu ∧
    (complete_graph (.int n) cu).multi = cuMulti cu ∧
    (complete_graph (.int n) cu).nodes = List.range n ∧
    (complete_graph (.int n) cu).name = "complete_graph(" ++ Nat.repr n ++ ")" := by
  unfold complete_graph
  rw [empty_graph_int_eq n cu]
  simp only [NodeSpec.resolve, NodeSpec.reprPy]
  split
  · split
    · refine ⟨by simp, by simp, ?_, by simp⟩
      rw [addEdges_nodes_of_mem]
      intro p hp
      rw [perm2_range n] at hp
      have := (idxPairs_mem n p).mp hp
      simp only [List.mem_range]
      exact ⟨this.1, this.2.1⟩
    · refine ⟨by simp, by simp, ?_, by simp⟩
      rw [addEdges_nodes_of_mem]
      intro p hp
      have := comb2_mem _ p hp
      exact this
  · exact ⟨rfl, rfl, rfl, rfl⟩

theorem complete_graph_int_edges (n : ℕ) (cu : Option (Graph ℕ)) :
    (complete_graph (.int n) cu).edges.length =
      if cuDir cu = true then n * (n - 1) else n * (n - 1) / 2 := by
  unfold complete_graph
  rw [empty_graph_int_eq n cu]
  simp only [NodeSpec.resolve, NodeSpec.reprPy]
  split
  · split
    · next hdir =>
      have hdir' : cuDir cu = true := by simpa using hdir
      have hpw : (perm2 (List.range n)).Pairwise (fun p q => q ≠ p) := by
        rw [perm2_range n]
        exact (idxPairs_nodup n).imp (fun h => Ne.symm h)
      have hedges :
          ((⟨cuDir cu, cuMulti cu, List.range n, [],
            "complete_graph(" ++ Nat.repr n ++ ")"⟩ :
            Graph ℕ).addEdges (perm2 (List.range n))).edges = perm2 (List.range n) := by
        rcases Bool.eq_false_or_eq_true (cuMulti cu) with hm | hm
        · rw [hm]
          have := addEdges_edges_multi
            (⟨cuDir cu, true, List.range n, [], "complete_graph(" ++ Nat.repr n ++ ")"⟩ :
              Graph ℕ)
            (perm2 (List.range n)) rfl
          simpa using this
        · rw [hm]
          have := addEdges_edges_fresh_dir
            (⟨cuDir cu, false, List.range n, [], "complete_graph(" ++ Nat.repr n ++ ")"⟩ :
              Graph ℕ)
            (perm2 (List.range n)) rfl hdir' (by intro p hp; simp) hpw
          simpa using this
      rw [hedges, perm2, List.length_map, idxPairs_length, List.length_range]
    · next hdir =>
      have hdir' : cuDir cu = false := by
        rcases Bool.eq_false_or_eq_true (cuDir cu) with h | h
        · exact absurd (by simpa using h) hdir
        · exact h
      have hedges :
          ((⟨cuDir cu, cuMulti cu, List.range n, [],
            "complete_graph(" ++ Nat.repr n ++ ")"⟩ :
            Graph ℕ).addEdges (comb2 (List.range n))).edges = comb2 (List.range n) := by
        rcases Bool.eq_false_or_eq_true (cuMulti cu) with hm | hm
        · rw [hm]
          have := addEdges_edges_multi
            (⟨cuDir cu, true, List.range n, [], "complete_graph(" ++ Nat.repr n ++ ")"⟩ :
              Graph ℕ)
            (comb2 (List.range n)) rfl
          simpa using this
        · rw [hm]
          have := addEdges_edges_fresh_undir
            (⟨cuDir cu, false, List.range n, [], "complete_graph(" ++ Nat.repr n ++ ")"⟩ :
              Graph ℕ)
            (comb2 (List.range n)) rfl hdir' (by intro p hp; simp)
            (comb2_fresh_sorted _ (List.pairwise_lt_range n))
          simpa using this
      rw [hedges]
      have h2 := comb2_length (List.range n)
      rw [List.length_range] at h2
      omega
  · next hlen =>
    have hn : n ≤ 1 := by
      rw [List.length_range] at hlen
      omega
    have h0 : n * (n - 1) = 0 := by
      interval_cases n <;> simp
    split <;> simp [h0]

/-! Facts about `star_graph` and `cycle_graph`. -/

theorem star_ns (n : ℕ) :
    List.range n ++ [n] = 0 :: List.map Nat.succ (List.range n) := by
  rw [← List.range_succ, List.range_succ_eq_map]

theorem countP_range_eq (t c : ℕ) :
    (List.range t).countP (fun k => decide (k = c)) = if c < t then 1 else 0 := by
  induction t with
  | zero => simp
  | succ t ih =>
    rw [List.range_succ, List.countP_append, ih]
    rcases lt_trichotomy c t with h | rfl | h
    · have hne : ¬(t = c) := by omega
      simp [h, Nat.lt_succ_of_lt h, hne, List.countP_cons]
    · simp [List.countP_cons, Nat.lt_irrefl]
    · have hne : ¬(t = c) := by omega
      have h1 : ¬(c < t) := by omega
      have h2 : ¬(c < t + 1) := by omega
      simp [h1, h2, hne, List.countP_cons]

theorem starCore_cons (nameArg : String) (first : ℕ) (rest : List ℕ)
    (cu : Option (Graph ℕ)) :
    starCore nameArg (first :: rest) cu =
      if (emptyCore (pyListRepr (first :: rest)) (first :: rest) cu).directed = true
      then .error (directedErrorMsg,
        cu.map (fun _ => emptyCore (pyListRepr (first :: rest)) (first :: rest) cu))
      else
        .ok ⟨((emptyCore (pyListRepr (first :: rest)) (first :: rest) cu).addEdges
            (rest.map (fun v => (first, v)))).directed,
          ((emptyCore (pyListRepr (first :: rest)) (first :: rest) cu).addEdges
            (rest.map (fun v => (first, v)))).multi,
          ((emptyCore (pyListRepr (first :: rest)) (first :: rest) cu).addEdges
            (rest.map (fun v => (first, v)))).nodes,
          ((emptyCore (pyListRepr (first :: rest)) (first :: rest) cu).addEdges
            (rest.map (fun v => (first, v)))).edges,
          "star_graph(" ++ nameArg ++ ")"⟩ := rfl

/-- For an undirected (possibly multigraph) container, `star_graph(n)`
succeeds and produces the explicit star on `range(n + 1)` with center 0. -/
theorem star_graph_int_eq (n : ℕ) (cu : Option (Graph ℕ)) (hd : cuDir cu = false) :
    star_graph (.int n) cu = .ok
      ⟨false, cuMulti cu, List.range (n + 1),
        (List.map Nat.succ (List.range n)).map (fun v => ((0 : ℕ), v)),
        "star_graph(" ++ Nat.repr n ++ ")"⟩ := by
  have hnd : (0 :: List.map Nat.succ (List.range n)).Nodup := by
    rw [← List.range_succ_eq_map]
    exact List.nodup_range (n + 1)
  show starCore (Nat.repr n) (List.range n ++ [n]) cu = _
  rw [star_ns n, starCore_cons, emptyCore_eq _ _ cu hnd]
  rw [if_neg (by simp [hd])]
  have hpairs :
      ((⟨cuDir cu, cuMulti cu, 0 :: List.map Nat.succ (List.range n), [],
        "empty_graph(" ++ pyListRepr (0 :: List.map Nat.succ (List.range n)) ++ ")"⟩ :
        Graph ℕ).addEdges
          ((List.map Nat.succ (List.range n)).map (fun v => ((0 : ℕ), v)))).edges =
        (List.map Nat.succ (List.range n)).map (fun v => ((0 : ℕ), v)) := by
    rcases Bool.eq_false_or_eq_true (cuMulti cu) with hm | hm
    · rw [hm]
      have := addEdges_edges_multi
        (⟨cuDir cu, true, 0 :: List.map Nat.succ (List.range n), [],
          "empty_graph(" ++ pyListRepr (0 :: List.map Nat.succ (List.range n)) ++ ")"⟩ :
          Graph ℕ)
        ((List.map Nat.succ (List.range n)).map (fun v => ((0 : ℕ), v))) rfl
      simpa using this
    · rw [hm]
      have hpw : ((List.map Nat.succ (List.range n)).map
          (fun v => ((0 : ℕ), v))).Pairwise (fun p q => q ≠ p ∧ q ≠ p.swap) := by
        rw [List.pairwise_map, List.pairwise_map]
        have hlt : (List.range n).Pairwise (· < ·) := List.pairwise_lt_range n
        refine hlt.imp ?_
        intro a b hab
        constructor
        · intro hcontra
          have := congrArg Prod.snd hcontra
          simp at this
          omega
        · intro hcontra
          have := congrArg Prod.fst hcontra
          simp at this
      have := addEdges_edges_fresh_undir
        (⟨cuDir cu, false, 0 :: List.map Nat.succ (List.range n), [],
          "empty_graph(" ++ pyListRepr (0 :: List.map Nat.succ (List.range n)) ++ ")"⟩ :
          Graph ℕ)
        ((List.map Nat.succ (List.range n)).map (fun v => ((0 : ℕ), v))) rfl
        (by simpa using hd) (by intro p hp; simp) hpw
      simpa using this
  have hnodes :
      ((⟨cuDir cu, cuMulti cu, 0 :: List.map Nat.succ (List.range n), [],
        "empty_graph(" ++ pyListRepr (0 :: List.map Nat.succ (List.range n)) ++ ")"⟩ :
        Graph ℕ).addEdges
          ((List.map Nat.succ (List.range n)).map (fun v => ((0 : ℕ), v)))).nodes =
        0 :: List.map Nat.succ (List.range n) := by
    rw [addEdges_nodes_of_mem]
    intro p hp
    rcases List.mem_map.mp hp with ⟨v, hv, rfl⟩
    exact ⟨List.mem_cons_self _ _, List.mem_cons_of_mem _ hv⟩
  refine congrArg Except.ok ?_
  ext1
  · simp [hd]
  · simp
  · rw [hnodes, ← List.range_succ_eq_map]
  · rw [hpairs]
  · simp

/-- With a directed `create_using` container, `star_graph` raises only after
`empty_graph` has cleared the container and repopulated it with the star's
node set. -/
theorem star_graph_directed_state (n : ℕ) (c : Graph ℕ) (hd : c.directed = true) :
    star_graph (.int n) (some c) = .error (directedErrorMsg,
      some ⟨true, c.multi, List.range (n + 1), [],
        "empty_graph(" ++ pyListRepr (List.range (n + 1)) ++ ")"⟩) := by
  have hnd : (0 :: List.map Nat.succ (List.range n)).Nodup := by
    rw [← List.range_succ_eq_map]
    exact List.nodup_range (n + 1)
  show starCore (Nat.repr n) (List.range n ++ [n]) (some c) = _
  rw [star_ns n, starCore_cons, emptyCore_eq _ _ (some c) hnd]
  rw [if_pos (by simpa using hd)]
  rw [← List.range_succ_eq_map]
  simp [cuMulti, cuDir, hd]

theorem cycle_graph_total (spec : NodeSpec) (cu : Option (Graph ℕ))
    (h : spec.resolve ≠ []) : (cycle_graph spec cu).isOk = true := by
  simp only [cycle_graph]
  obtain ⟨a, ha⟩ := Option.isSome_iff_exists.mp (List.getLast?_isSome.mpr h)
  obtain ⟨b, hb⟩ : ∃ b, spec.resolve.head? = some b := by
    cases hres : spec.resolve with
    | nil => exact absurd hres h
    | cons b t => exact ⟨b, rfl⟩
  rw [ha, hb]
  rfl

/-! Facts about `barbell_graph`. -/

omit [DecidableEq α] in
@[simp] theorem okG_ok {ε : Type} (g : Graph α) :
    okG (Except.ok (ε := ε) g) = g := rfl

theorem mem_ite_addEdges_nodes (c : Prop) [Decidable c] (g : Graph α)
    (ps : List (α × α)) (w : α) :
    (w ∈ (if c then g.addEdges ps else g).nodes) ↔
      w ∈ g.nodes ∨ (c ∧ ∃ p ∈ ps, w = p.1 ∨ w = p.2) := by
  split
  · next hc =>
    rw [mem_addEdges_nodes]
    constructor
    · rintro (h | ⟨p, hp, hw⟩)
      · exact Or.inl h
      · exact Or.inr ⟨hc, p, hp, hw⟩
    · rintro (h | ⟨_, p, hp, hw⟩)
      · exact Or.inl h
      · exact Or.inr ⟨p, hp, hw⟩
  · next hc =>
    constructor
    · exact Or.inl
    · rintro (h | ⟨hc', _⟩)
      · exact h
      · exact absurd hc' hc

theorem mem_ite_addEdge_nodes (c : Prop) [Decidable c] (g : Graph α) (u v w : α) :
    (w ∈ (if c then g.addEdge u v else g).nodes) ↔
      w ∈ g.nodes ∨ (c ∧ (w = u ∨ w = v)) := by
  split
  · next hc =>
    rw [mem_addEdge_nodes]
    constructor
    · rintro (h | h)
      · exact Or.inl h
      · exact Or.inr ⟨hc, h⟩
    · rintro (h | ⟨_, h⟩)
      · exact Or.inl h
      · exact Or.inr h
  · next hc =>
    constructor
    · exact Or.inl
    · rintro (h | ⟨hc', _⟩)
      · exact h
      · exact absurd hc' hc

theorem barbell_graph_ok_and_nodes (m1 m2 : ℕ) (cu : Option (Graph ℕ))
    (hm1 : 2 ≤ m1) (hd : cuDir cu = false) :
    (barbell_graph m1 m2 cu).isOk = true ∧
    ∀ v, (v ∈ (okG (barbell_graph m1 m2 cu)).nodes ↔ v < 2 * m1 + m2) := by
  constructor
  · simp only [barbell_graph, hd, Bool.false_eq_true, if_false]
    rw [if_neg (show ¬(m1 < 2) by omega)]
    rfl
  · intro v
    simp only [barbell_graph, hd, Bool.false_eq_true, if_false]
    rw [if_neg (show ¬(m1 < 2) by omega), okG_ok]
    rw [mem_ite_addEdge_nodes, mem_addEdge_nodes, mem_addEdges_nodes,
      mem_ite_addEdges_nodes, mem_addNodes_nodes]
    dsimp only
    rw [(complete_graph_int_base m1 cu).2.2.1]
    simp only [List.mem_range, List.mem_range'_1, List.mem_flatMap, List.mem_map]
    constructor
    · rintro (((((h | h) | ⟨hm2, p, hp, hv⟩) | ⟨p, ⟨u, hu, w, hw, rfl⟩, hv⟩) | (h | h)) |
        ⟨hm2, h | h⟩)
      · omega
      · omega
      · have h1 := (List.of_mem_zip hp).1
        have h2 := List.mem_of_mem_tail (List.of_mem_zip hp).2
        rw [List.mem_range'_1] at h1 h2
        rcases hv with hv | hv <;> subst hv <;> omega
      · rcases hv with hv | hv <;> subst hv <;> omega
      · omega
      · omega
      · omega
      · omega
    · intro hv
      by_cases h1 : v < m1
      · exact Or.inl (Or.inl (Or.inl (Or.inl (Or.inl h1))))
      · by_cases h2 : v + 1 < m1 + m2
        · exact Or.inl (Or.inl (Or.inl (Or.inl (Or.inr ⟨by omega, by omega⟩))))
        · by_cases h3 : v + 1 = m1 + m2
          · exact Or.inr ⟨by omega, Or.inl (by omega)⟩
          · by_cases h4 : v + 1 < 2 * m1 + m2
            · refine Or.inl (Or.inl (Or.inr ⟨(v, v + 1), ⟨v, ⟨by omega, by omega⟩,
                v + 1, ⟨⟨by omega, by omega⟩, rfl⟩⟩, Or.inl rfl⟩))
            · refine Or.inl (Or.inl (Or.inr ⟨(m1 + m2, v), ⟨m1 + m2, ⟨by omega, by omega⟩,
                v, ⟨⟨by omega, by omega⟩, rfl⟩⟩, Or.inr rfl⟩))

/-! Facts about `complete_multipartite_graph` and `turan_graph`. -/

theorem accumulateFrom_cons (s a : ℕ) (rest : List ℕ) :
    accumulateFrom s (a :: rest) = (s + a) :: accumulateFrom (s + a) rest := rfl

theorem cmgE_cons (s a : ℕ) (rest : List ℕ) :
    (pairwiseL (s :: accumulateFrom s (a :: rest))).map
        (fun p => List.range' p.1 (p.2 - p.1)) =
      List.range' s a ::
        (pairwiseL ((s + a) :: accumulateFrom (s + a) rest)).map
          (fun p => List.range' p.1 (p.2 - p.1)) := by
  rw [accumulateFrom_cons]
  show ((s, s + a) :: pairwiseL ((s + a) :: accumulateFrom (s + a) rest)).map _ = _
  rw [List.map_cons]
  congr 2
  omega

theorem cmgE_lengths (s : ℕ) (sizes : List ℕ) :
    ((pairwiseL (s :: accumulateFrom s sizes)).map
      (fun p => List.range' p.1 (p.2 - p.1))).map List.length = sizes := by
  induction sizes generalizing s with
  | nil => rfl
  | cons a rest ih =>
    rw [cmgE_cons, List.map_cons, List.length_range', ih]

theorem cmgE_ranges (s : ℕ) (sizes : List ℕ) :
    ∀ b ∈ (pairwiseL (s :: accumulateFrom s sizes)).map
      (fun p => List.range' p.1 (p.2 - p.1)), ∃ t k, b = List.range' t k := by
  induction sizes generalizing s with
  | nil => simp [pairwiseL, accumulateFrom]
  | cons a rest ih =>
    rw [cmgE_cons]
    intro b hb
    rcases List.mem_cons.mp hb with rfl | hb
    · exact ⟨s, a, rfl⟩
    · exact ih (s + a) b hb

theorem cmgE_lb (s : ℕ) (sizes : List ℕ) :
    ∀ b ∈ (pairwiseL (s :: accumulateFrom s sizes)).map
      (fun p => List.range' p.1 (p.2 - p.1)), ∀ v ∈ b, s ≤ v := by
  induction sizes generalizing s with
  | nil => simp [pairwiseL, accumulateFrom]
  | cons a rest ih =>
    rw [cmgE_cons]
    intro b hb v hv
    rcases List.mem_cons.mp hb with rfl | hb
    · exact (List.mem_range'_1.mp hv).1
    · have := ih (s + a) b hb v hv
      omega

theorem cmgE_pairwise (s : ℕ) (sizes : List ℕ) :
    ((pairwiseL (s :: accumulateFrom s sizes)).map
      (fun p => List.range' p.1 (p.2 - p.1))).Pairwise
        (fun b1 b2 => ∀ u ∈ b1, ∀ v ∈ b2, u < v) := by
  induction sizes generalizing s with
  | nil => simp [pairwiseL, accumulateFrom]
  | cons a rest ih =>
    rw [cmgE_cons]
    rw [List.pairwise_cons]
    refine ⟨?_, ih (s + a)⟩
    intro b hb u hu v hv
    have h1 := (List.mem_range'_1.mp hu).2
    have h2 := cmgE_lb (s + a) rest b hb v hv
    omega

theorem cmgBlocks_lengths (sizes : List ℕ) :
    (cmgBlocks sizes).map List.length = sizes := cmgE_lengths 0 sizes

theorem cmgBlocks_pairwise (sizes : List ℕ) :
    (cmgBlocks sizes).Pairwise (fun b1 b2 => ∀ u ∈ b1, ∀ v ∈ b2, u < v) :=
  cmgE_pairwise 0 sizes

theorem cmgBlocks_ranges (sizes : List ℕ) :
    ∀ b ∈ cmgBlocks sizes, ∃ t k, b = List.range' t k := cmgE_ranges 0 sizes

theorem prodList_mem (b1 b2 : List ℕ) (p : ℕ × ℕ) :
    p ∈ b1.flatMap (fun u => b2.map (fun v => (u, v))) ↔ p.1 ∈ b1 ∧ p.2 ∈ b2 := by
  obtain ⟨x, y⟩ := p
  simp only [List.mem_flatMap, List.mem_map, Prod.mk.injEq]
  constructor
  · rintro ⟨u, hu, v, hv, rfl, rfl⟩
    exact ⟨hu, hv⟩
  · rintro ⟨hx, hy⟩
    exact ⟨x, hx, y, hy, rfl, rfl⟩

theorem prodList_length (b1 b2 : List ℕ) :
    (b1.flatMap (fun u => b2.map (fun v => (u, v)))).length =
      b1.length * b2.length := by
  induction b1 with
  | nil => simp
  | cons a t ih =>
    rw [List.flatMap_cons, List.length_append, ih, List.length_map, List.length_cons,
      Nat.succ_mul, Nat.add_comm]

theorem prodList_nodup (b1 b2 : List ℕ) (h1 : b1.Nodup) (h2 : b2.Nodup) :
    (b1.flatMap (fun u => b2.map (fun v => (u, v)))).Nodup := by
  rw [List.nodup_flatMap]
  constructor
  · intro u hu
    refine h2.map ?_
    intro x y hxy
    simpa using congrArg Prod.snd hxy
  · refine h1.imp ?_
    intro a b hab x hxa hxb
    rcases List.mem_map.mp hxa with ⟨v, _, rfl⟩
    rcases List.mem_map.mp hxb with ⟨w, _, he⟩
    exact hab (by simpa using (congrArg Prod.fst he).symm)

theorem cmgPairs_fst_lt (sizes : List ℕ) :
    ∀ p ∈ cmgPairs sizes, p.1 < p.2 := by
  intro p hp
  rcases List.mem_flatMap.mp hp with ⟨bp, hbp, hp'⟩
  have hmem := (prodList_mem bp.1 bp.2 p).mp hp'
  have hrel := comb2_rel (fun b1 b2 => ∀ u ∈ b1, ∀ v ∈ b2, u < v)
    (cmgBlocks sizes) (cmgBlocks_pairwise sizes) bp hbp
  exact hrel p.1 hmem.1 p.2 hmem.2

theorem cmgPairs_nodup (sizes : List ℕ) : (cmgPairs sizes).Nodup := by
  rw [cmgPairs, List.nodup_flatMap]
  constructor
  · intro bp hbp
    have hm := comb2_mem (cmgBlocks sizes) bp hbp
    obtain ⟨t1, k1, e1⟩ := cmgBlocks_ranges sizes bp.1 hm.1
    obtain ⟨t2, k2, e2⟩ := cmgBlocks_ranges sizes bp.2 hm.2
    exact prodList_nodup bp.1 bp.2 (by rw [e1]; exact List.nodup_range' _ _)
      (by rw [e2]; exact List.nodup_range' _ _)
  · have hS := comb2_pairwise (fun b1 b2 => ∀ u ∈ b1, ∀ v ∈ b2, u < v)
      (cmgBlocks sizes) (cmgBlocks_pairwise sizes)
    refine hS.imp ?_
    intro bp bq hrel x hxp hxq
    have hp := (prodList_mem bp.1 bp.2 x).mp hxp
    have hq := (prodList_mem bq.1 bq.2 x).mp hxq
    rcases hrel with ⟨he, hlt⟩ | ⟨hlt, hlt'⟩
    · rw [he] at hp
      exact absurd (hlt x.2 hp.2 x.2 hq.2) (lt_irrefl x.2)
    · exact absurd (hlt x.1 hp.1 x.1 hq.1) (lt_irrefl x.1)

theorem comb2_sum_mul {β : Type} (f : β → ℕ) (l : List β) :
    ((comb2 l).map (fun bp => f bp.1 * f bp.2)).sum = pairsSum (l.map f) := by
  induction l with
  | nil => rfl
  | cons a t ih =>
    show ((t.map (fun b => (a, b)) ++ comb2 t).map _).sum = _
    rw [List.map_append, List.sum_append, List.map_map, ih]
    show ((t.map fun b => f a * f b)).sum + _ = _
    rw [List.sum_map_mul_left]
    rfl

theorem cmgPairs_length (sizes : List ℕ) :
    (cmgPairs sizes).length = pairsSum sizes := by
  rw [cmgPairs, List.length_flatMap]
  have hcong : ∀ bp ∈ comb2 (cmgBlocks sizes),
      (List.length ∘ fun bp : List ℕ × List ℕ =>
        bp.1.flatMap (fun u => bp.2.map (fun v => (u, v)))) bp =
      (fun bp : List ℕ × List ℕ => bp.1.length * bp.2.length) bp := by
    intro bp _
    exact prodList_length bp.1 bp.2
  rw [List.map_congr_left hcong]
  have h2 := comb2_sum_mul List.length (cmgBlocks sizes)
  rw [cmgBlocks_lengths] at h2
  exact h2

theorem cmg_edges_eq (sizes : List ℕ) :
    (complete_multipartite_graph sizes).edges = cmgPairs sizes := by
  unfold complete_multipartite_graph
  split
  · next hs =>
    have : sizes = [] := by simpa [List.isEmpty_iff] using hs
    subst this
    rfl
  · have hfresh : ∀ p ∈ cmgPairs sizes,
        p ∉ (Graph.addNodes (⟨false, false, [], [],
          "complete_multiparite_graph" ++ pyTupleRepr sizes⟩ : Graph ℕ)
          (cmgBlocks sizes).flatten).edges ∧
        p.swap ∉ (Graph.addNodes (⟨false, false, [], [],
          "complete_multiparite_graph" ++ pyTupleRepr sizes⟩ : Graph ℕ)
          (cmgBlocks sizes).flatten).edges := by
      intro p _
      rw [addNodes_edges]
      simp
    have hpw : (cmgPairs sizes).Pairwise (fun p q => q ≠ p ∧ q ≠ p.swap) := by
      have hnd := (cmgPairs_nodup sizes).imp_of_mem
        (S := fun p q => q ≠ p ∧ q ≠ p.swap) ?_
      · exact hnd
      · intro p q hp hq hne
        have h1 := cmgPairs_fst_lt sizes p hp
        have h2 := cmgPairs_fst_lt sizes q hq
        refine ⟨Ne.symm hne, ?_⟩
        intro he
        have e1 : q.1 = p.2 := by rw [he]; rfl
        have e2 : q.2 = p.1 := by rw [he]; rfl
        omega
    have := addEdges_edges_fresh_undir
      (Graph.addNodes (⟨false, false, [], [],
        "complete_multiparite_graph" ++ pyTupleRepr sizes⟩ : Graph ℕ)
        (cmgBlocks sizes).flatten)
      (cmgPairs sizes) (by rw [addNodes_multi]) (by rw [addNodes_directed])
      hfresh hpw
    rw [this, addNodes_edges]
    rfl

theorem cmg_edges_length (sizes : List ℕ) :
    (complete_multipartite_graph sizes).edges.length = pairsSum sizes := by
  rw [cmg_edges_eq, cmgPairs_length]

theorem pairsSum_sq (l : List ℕ) :
    2 * pairsSum l + (l.map (fun x => x * x)).sum = l.sum * l.sum := by
  induction l with
  | nil => rfl
  | cons a t ih =>
    simp only [pairsSum, List.map_cons, List.sum_cons]
    calc 2 * (a * t.sum + pairsSum t) + (a * a + (t.map (fun x => x * x)).sum)
        = (2 * pairsSum t + (t.map (fun x => x * x)).sum) + (2 * (a * t.sum) + a * a) := by
          ring
      _ = t.sum * t.sum + (2 * (a * t.sum) + a * a) := by rw [ih]
      _ = (a + t.sum) * (a + t.sum) := by ring

theorem turanPartitions_length (n r : ℕ) (hr : 1 ≤ r) :
    (turanPartitions n r).length = r := by
  have hm : n % r < r := Nat.mod_lt _ (by omega)
  simp only [turanPartitions, List.length_append, List.length_replicate]
  omega

theorem turanPartitions_sizes (n r : ℕ) :
    ∀ s ∈ turanPartitions n r, s = n / r ∨ s = n / r + 1 := by
  intro s hs
  rcases List.mem_append.mp hs with h | h
  · exact Or.inl (List.eq_of_mem_replicate h)
  · exact Or.inr (List.eq_of_mem_replicate h)

theorem turanPartitions_sum (n r : ℕ) (hr : 1 ≤ r) :
    (turanPartitions n r).sum = n := by
  have hm : n % r < r := Nat.mod_lt _ (by omega)
  have hd : r * (n / r) + n % r = n := Nat.div_add_mod n r
  simp only [turanPartitions, List.sum_append, List.sum_replicate, smul_eq_mul]
  generalize hq : n / r = q at hd ⊢
  generalize hmm : n % r = m at hd hm ⊢
  subst hd
  have hm' : m ≤ r := le_of_lt hm
  zify [hm']
  ring

theorem turanPartitions_sqsum (n r : ℕ) :
    ((turanPartitions n r).map (fun x => x * x)).sum =
      (r - n % r) * (n / r * (n / r)) + n % r * ((n / r + 1) * (n / r + 1)) := by
  simp only [turanPartitions, List.map_append, List.map_replicate, List.sum_append,
    List.sum_replicate, smul_eq_mul]

theorem turan_edge_identity (n r : ℕ) (hr : 1 ≤ r) (hrn : r ≤ n) :
    2 * r * pairsSum (turanPartitions n r) + (n % r) * (r - n % r) =
      (r - 1) * (n * n) := by
  have hm : n % r < r := Nat.mod_lt _ (by omega)
  have hd : r * (n / r) + n % r = n := Nat.div_add_mod n r
  have hsq := pairsSum_sq (turanPartitions n r)
  rw [turanPartitions_sum n r hr, turanPartitions_sqsum n r] at hsq
  generalize hP : pairsSum (turanPartitions n r) = P at hsq ⊢
  generalize hq : n / r = q at hsq hd
  generalize hmm : n % r = m at hsq hd hm ⊢
  subst hd
  have hm' : m ≤ r := le_of_lt hm
  zify [hm', hr] at hsq ⊢
  linear_combination (r : ℤ) * hsq

theorem turan_graph_ok_edges (n r : ℕ) (h1 : 1 ≤ r) (h2 : r ≤ n) :
    (turan_graph n r).isOk = true ∧
    (okG (turan_graph n r)).edges.length = pairsSum (turanPartitions n r) := by
  unfold turan_graph
  rw [if_pos ⟨h1, h2⟩]
  refine ⟨rfl, ?_⟩
  rw [okG_ok]
  exact cmg_edges_length (turanPartitions n r)

/-! Facts about `grid_2d_graph`. -/

theorem pairwiseL_cons2 {β : Type} (a b : β) (t : List β) :
    pairwiseL (a :: b :: t) = (a, b) :: pairwiseL (b :: t) := rfl

theorem pairwiseL_range' (s k : ℕ) :
    pairwiseL (List.range' s k) = (List.range' s (k - 1)).map (fun x => (x, x + 1)) := by
  induction k generalizing s with
  | zero => rfl
  | succ k ih =>
    cases k with
    | zero => rfl
    | succ k2 =>
      have e1 : List.range' s (k2 + 1 + 1) = s :: List.range' (s + 1) (k2 + 1) :=
        List.range'_succ s (k2 + 1) 1
      have e2 : List.range' (s + 1) (k2 + 1) = (s + 1) :: List.range' (s + 2) k2 := by
        have := List.range'_succ (s + 1) k2 1
        simpa [Nat.add_assoc] using this
      rw [e1, e2, pairwiseL_cons2]
      have e3 : List.range' s (k2 + 1 + 1 - 1) = s :: List.range' (s + 1) k2 := by
        have := List.range'_succ s k2 1
        simpa using this
      rw [e3, List.map_cons]
      congr 1
      have := ih (s + 1)
      rw [e2] at this
      simpa using this

theorem pairwiseL_range (m : ℕ) :
    pairwiseL (List.range m) = (List.range (m - 1)).map (fun x => (x, x + 1)) := by
  rw [List.range_eq_range', pairwiseL_range', ← List.range_eq_range']

theorem range_headD (n : ℕ) (h : 0 < n) : (List.range n).headD 0 = 0 := by
  cases n with
  | zero => omega
  | succ t => rw [List.range_succ_eq_map]; rfl

theorem range_getLastD (n : ℕ) (h : 0 < n) : (List.range n).getLastD 0 = n - 1 := by
  cases n with
  | zero => omega
  | succ t =>
    rw [List.range_succ, List.getLastD_concat]
    omega

theorem flatMap_map_nodup {γ : Type} [DecidableEq γ] (t u : ℕ) (F : ℕ → ℕ → γ)
    (hinj : ∀ a b a' b', F a b = F a' b' → a = a' ∧ b = b') :
    ((List.range t).flatMap (fun a => (List.range u).map (F a))).Nodup := by
  rw [List.nodup_flatMap]
  constructor
  · intro a _
    exact (List.nodup_range u).map (fun x y hxy => (hinj a x a y hxy).2)
  · have : (List.range t).Pairwise (· ≠ ·) := List.nodup_range t
    refine this.imp ?_
    intro a b hab x hxa hxb
    rcases List.mem_map.mp hxa with ⟨p, _, rfl⟩
    rcases List.mem_map.mp hxb with ⟨q, _, he⟩
    exact hab (hinj a p b q he.symm).1

theorem countP_decide_eq_of_nodup {δ : Type} [DecidableEq δ] (l : List δ)
    (hnd : l.Nodup) (c : δ) :
    l.countP (fun e => decide (e = c)) = if c ∈ l then 1 else 0 := by
  induction l with
  | nil => simp
  | cons a t ih =>
    rw [List.countP_cons, ih (List.nodup_cons.mp hnd).2]
    by_cases hac : a = c
    · subst hac
      have hna : a ∉ t := (List.nodup_cons.mp hnd).1
      simp [hna]
    · simp [hac, Ne.symm hac, List.mem_cons]

theorem reList_mem (m n : ℕ) (e : (ℕ × ℕ) × (ℕ × ℕ)) :
    e ∈ reList m n ↔
      e.1.1 = e.2.1 + 1 ∧ e.1.2 = e.2.2 ∧ e.1.1 < m ∧ e.1.2 < n := by
  obtain ⟨⟨a, b⟩, c, d⟩ := e
  simp only [reList, List.mem_flatMap, List.mem_map, List.mem_range, Prod.mk.injEq]
  constructor
  · rintro ⟨k, hk, j, hj, ⟨rfl, rfl⟩, rfl, rfl⟩
    exact ⟨rfl, rfl, by omega, hj⟩
  · rintro ⟨h1, h2, h3, h4⟩
    exact ⟨c, by omega, b, by omega, ⟨by omega, rfl⟩, rfl, by omega⟩

theorem ceList_mem (m n : ℕ) (e : (ℕ × ℕ) × (ℕ × ℕ)) :
    e ∈ ceList m n ↔
      e.1.1 = e.2.1 ∧ e.1.2 = e.2.2 + 1 ∧ e.1.1 < m ∧ e.1.2 < n := by
  obtain ⟨⟨a, b⟩, c, d⟩ := e
  simp only [ceList, List.mem_flatMap, List.mem_map, List.mem_range, Prod.mk.injEq]
  constructor
  · rintro ⟨i, hi, k, hk, ⟨rfl, rfl⟩, rfl, rfl⟩
    exact ⟨rfl, rfl, hi, by omega⟩
  · rintro ⟨h1, h2, h3, h4⟩
    exact ⟨a, h3, d, by omega, ⟨rfl, by omega⟩, by omega, rfl⟩

theorem wcList_mem (m n : ℕ) (e : (ℕ × ℕ) × (ℕ × ℕ)) :
    e ∈ wcList m n ↔
      e.1.1 = e.2.1 ∧ e.1.2 = 0 ∧ e.2.2 = n - 1 ∧ e.1.1 < m := by
  obtain ⟨⟨a, b⟩, c, d⟩ := e
  simp only [wcList, List.mem_map, List.mem_range, Prod.mk.injEq]
  constructor
  · rintro ⟨i, hi, ⟨rfl, rfl⟩, rfl, rfl⟩
    exact ⟨rfl, rfl, rfl, hi⟩
  · rintro ⟨h1, h2, h3, h4⟩
    exact ⟨a, h4, ⟨rfl, by omega⟩, by omega, by omega⟩

theorem wrList_mem (m n : ℕ) (e : (ℕ × ℕ) × (ℕ × ℕ)) :
    e ∈ wrList m n ↔
      e.1.1 = 0 ∧ e.2.1 = m - 1 ∧ e.1.2 = e.2.2 ∧ e.1.2 < n := by
  obtain ⟨⟨a, b⟩, c, d⟩ := e
  simp only [wrList, List.mem_map, List.mem_range, Prod.mk.injEq]
  constructor
  · rintro ⟨j, hj, ⟨rfl, rfl⟩, rfl, rfl⟩
    exact ⟨rfl, rfl, rfl, hj⟩
  · rintro ⟨h1, h2, h3, h4⟩
    exact ⟨b, h4, ⟨by omega, rfl⟩, by omega, by omega⟩

theorem reList_nodup (m n : ℕ) : (reList m n).Nodup := by
  refine flatMap_map_nodup (m - 1) n _ ?_
  intro a b a' b' he
  simp only [Prod.mk.injEq] at he
  omega

theorem ceList_nodup (m n : ℕ) : (ceList m n).Nodup := by
  refine flatMap_map_nodup m (n - 1) _ ?_
  intro a b a' b' he
  simp only [Prod.mk.injEq] at he
  omega

theorem wcList_nodup (m n : ℕ) : (wcList m n).Nodup := by
  refine (List.nodup_range m).map ?_
  intro x y hxy
  simpa using congrArg (fun e => e.1.1) hxy

theorem wrList_nodup (m n : ℕ) : (wrList m n).Nodup := by
  refine (List.nodup_range n).map ?_
  intro x y hxy
  simpa using congrArg (fun e => e.1.2) hxy

theorem gridNodesList_nodup (m n : ℕ) : (gridNodesList m n).Nodup := by
  refine flatMap_map_nodup m n _ ?_
  intro a b a' b' he
  simp only [Prod.mk.injEq] at he
  exact he

theorem gridNodesList_mem (m n : ℕ) (v : ℕ × ℕ) :
    v ∈ gridNodesList m n ↔ v.1 < m ∧ v.2 < n := by
  obtain ⟨a, b⟩ := v
  simp only [gridNodesList, List.mem_flatMap, List.mem_map, List.mem_range, Prod.mk.injEq]
  constructor
  · rintro ⟨i, hi, j, hj, rfl, rfl⟩
    exact ⟨hi, hj⟩
  · rintro ⟨h1, h2⟩
    exact ⟨a, h1, b, h2, rfl, rfl⟩

theorem gridNodesList_length (m n : ℕ) : (gridNodesList m n).length = m * n := by
  rw [gridNodesList, List.length_flatMap]
  have hcong : ∀ i ∈ List.range m,
      (List.length ∘ fun i => (List.range n).map (fun j => ((i, j) : ℕ × ℕ))) i = n := by
    intro i _
    simp
  rw [List.map_congr_left hcong]
  rw [show (fun (_ : ℕ) => n) = Function.const ℕ n from rfl, List.map_const,
    List.length_range, List.sum_replicate, smul_eq_mul]

theorem grid2d_re_eq (m n : ℕ) :
    (pairwiseL (List.range m)).flatMap
        (fun p => (List.range n).map (fun j => ((p.2, j), (p.1, j)))) = reList m n := by
  rw [pairwiseL_range, List.flatMap_map]
  rfl

theorem grid2d_ce_eq (m n : ℕ) :
    (List.range m).flatMap
        (fun i => (pairwiseL (List.range n)).map (fun q => ((i, q.2), (i, q.1)))) =
      ceList m n := by
  have hpt : ∀ i : ℕ, (pairwiseL (List.range n)).map (fun q => ((i, q.2), (i, q.1))) =
      (List.range (n - 1)).map (fun k => ((i, k + 1), (i, k))) := by
    intro i
    rw [pairwiseL_range, List.map_map]
    rfl
  rw [ceList]
  congr 1
  funext i
  exact hpt i

theorem grid2d_nodes_eq (m n : ℕ) :
    (List.range m).flatMap (fun i => (List.range n).map (fun j => ((i, j) : ℕ × ℕ))) =
      gridNodesList m n := rfl

theorem reList_pairwise_fresh (m n : ℕ) :
    (reList m n).Pairwise (fun p q => q ≠ p ∧ q ≠ p.swap) := by
  refine (reList_nodup m n).imp_of_mem ?_
  intro p q hp hq hne
  have hps := (reList_mem m n p).mp hp
  have hqs := (reList_mem m n q).mp hq
  refine ⟨Ne.symm hne, ?_⟩
  intro he
  have e1 := congrArg (fun e : (ℕ × ℕ) × (ℕ × ℕ) => e.1.1) he
  have e2 := congrArg (fun e : (ℕ × ℕ) × (ℕ × ℕ) => e.2.1) he
  simp only [Prod.fst_swap, Prod.snd_swap] at e1 e2
  omega

theorem ceList_pairwise_fresh (m n : ℕ) :
    (ceList m n).Pairwise (fun p q => q ≠ p ∧ q ≠ p.swap) := by
  refine (ceList_nodup m n).imp_of_mem ?_
  intro p q hp hq hne
  have hps := (ceList_mem m n p).mp hp
  have hqs := (ceList_mem m n q).mp hq
  refine ⟨Ne.symm hne, ?_⟩
  intro he
  have e1 := congrArg (fun e : (ℕ × ℕ) × (ℕ × ℕ) => e.1.2) he
  have e2 := congrArg (fun e : (ℕ × ℕ) × (ℕ × ℕ) => e.2.2) he
  simp only [Prod.fst_swap, Prod.snd_swap] at e1 e2
  omega

theorem wcList_pairwise_fresh (m n : ℕ) (hn : 2 < n) :
    (wcList m n).Pairwise (fun p q => q ≠ p ∧ q ≠ p.swap) := by
  refine (wcList_nodup m n).imp_of_mem ?_
  intro p q hp hq hne
  have hps := (wcList_mem m n p).mp hp
  have hqs := (wcList_mem m n q).mp hq
  refine ⟨Ne.symm hne, ?_⟩
  intro he
  have e1 := congrArg (fun e : (ℕ × ℕ) × (ℕ × ℕ) => e.1.2) he
  simp only [Prod.fst_swap, Prod.snd_swap] at e1
  omega

theorem wrList_pairwise_fresh (m n : ℕ) (hm : 2 < m) :
    (wrList m n).Pairwise (fun p q => q ≠ p ∧ q ≠ p.swap) := by
  refine (wrList_nodup m n).imp_of_mem ?_
  intro p q hp hq hne
  have hps := (wrList_mem m n p).mp hp
  have hqs := (wrList_mem m n q).mp hq
  refine ⟨Ne.symm hne, ?_⟩
  intro he
  have e1 := congrArg (fun e : (ℕ × ℕ) × (ℕ × ℕ) => e.1.1) he
  simp only [Prod.fst_swap, Prod.snd_swap] at e1
  omega

theorem ceList_fresh_re (m n : ℕ) :
    ∀ p ∈ ceList m n, p ∉ reList m n ∧ p.swap ∉ reList m n := by
  intro p hp
  have hps := (ceList_mem m n p).mp hp
  constructor
  · intro hmem
    have := (reList_mem m n p).mp hmem
    omega
  · intro hmem
    have := (reList_mem m n p.swap).mp hmem
    simp only [Prod.fst_swap, Prod.snd_swap] at this
    omega

theorem wcList_fresh (m n : ℕ) (hn : 2 < n) :
    ∀ p ∈ wcList m n,
      (p ∉ reList m n ∧ p.swap ∉ reList m n) ∧
      (p ∉ ceList m n ∧ p.swap ∉ ceList m n) := by
  intro p hp
  have hps := (wcList_mem m n p).mp hp
  refine ⟨⟨?_, ?_⟩, ?_, ?_⟩
  · intro hmem
    have := (reList_mem m n p).mp hmem
    omega
  · intro hmem
    have := (reList_mem m n p.swap).mp hmem
    simp only [Prod.fst_swap, Prod.snd_swap] at this
    omega
  · intro hmem
    have := (ceList_mem m n p).mp hmem
    omega
  · intro hmem
    have := (ceList_mem m n p.swap).mp hmem
    simp only [Prod.fst_swap, Prod.snd_swap] at this
    omega

theorem wrList_fresh (m n : ℕ) (hm : 2 < m) :
    ∀ p ∈ wrList m n,
      ((p ∉ reList m n ∧ p.swap ∉ reList m n) ∧
       (p ∉ ceList m n ∧ p.swap ∉ ceList m n)) ∧
      (p ∉ wcList m n ∧ p.swap ∉ wcList m n) := by
  intro p hp
  have hps := (wrList_mem m n p).mp hp
  refine ⟨⟨⟨?_, ?_⟩, ?_, ?_⟩, ?_, ?_⟩
  · intro hmem
    have := (reList_mem m n p).mp hmem
    omega
  · intro hmem
    have := (reList_mem m n p.swap).mp hmem
    simp only [Prod.fst_swap, Prod.snd_swap] at this
    omega
  · intro hmem
    have := (ceList_mem m n p).mp hmem
    omega
  · intro hmem
    have := (ceList_mem m n p.swap).mp hmem
    simp only [Prod.fst_swap, Prod.snd_swap] at this
    omega
  · intro hmem
    have := (wcList_mem m n p).mp hmem
    omega
  · intro hmem
    have := (wcList_mem m n p.swap).mp hmem
    simp only [Prod.fst_swap, Prod.snd_swap] at this
    omega

theorem record_addEdges_eq (ns : List (ℕ × ℕ)) (es ps : List ((ℕ × ℕ) × (ℕ × ℕ)))
    (nm : String)
    (hpw : ps.Pairwise (fun p q => q ≠ p ∧ q ≠ p.swap))
    (hfresh : ∀ p ∈ ps, p ∉ es ∧ p.swap ∉ es)
    (hnodes : ∀ p ∈ ps, p.1 ∈ ns ∧ p.2 ∈ ns) :
    (⟨false, false, ns, es, nm⟩ : Graph (ℕ × ℕ)).addEdges ps =
      ⟨false, false, ns, es ++ ps, nm⟩ := by
  ext1
  · simp
  · simp
  · exact addEdges_nodes_of_mem _ ps hnodes
  · exact addEdges_edges_fresh_undir _ ps rfl rfl hfresh hpw
  · simp

theorem record_addNodes_eq (vs : List (ℕ × ℕ)) (nm : String) (hnd : vs.Nodup) :
    (⟨false, false, [], [], nm⟩ : Graph (ℕ × ℕ)).addNodes vs =
      ⟨false, false, vs, [], nm⟩ := by
  ext1
  · simp
  · simp
  · have := addNodes_nodes_fresh (⟨false, false, [], [], nm⟩ : Graph (ℕ × ℕ)) vs hnd
      (by intro v hv; simp)
    simpa using this
  · simp
  · simp

theorem reList_nodes (m n : ℕ) :
    ∀ p ∈ reList m n, p.1 ∈ gridNodesList m n ∧ p.2 ∈ gridNodesList m n := by
  intro p hp
  have h := (reList_mem m n p).mp hp
  rw [gridNodesList_mem, gridNodesList_mem]
  omega

theorem ceList_nodes (m n : ℕ) :
    ∀ p ∈ ceList m n, p.1 ∈ gridNodesList m n ∧ p.2 ∈ gridNodesList m n := by
  intro p hp
  have h := (ceList_mem m n p).mp hp
  rw [gridNodesList_mem, gridNodesList_mem]
  omega

theorem wcList_nodes (m n : ℕ) (hn : 2 < n) :
    ∀ p ∈ wcList m n, p.1 ∈ gridNodesList m n ∧ p.2 ∈ gridNodesList m n := by
  intro p hp
  have h := (wcList_mem m n p).mp hp
  rw [gridNodesList_mem, gridNodesList_mem]
  omega

theorem wrList_nodes (m n : ℕ) (hm : 2 < m) :
    ∀ p ∈ wrList m n, p.1 ∈ gridNodesList m n ∧ p.2 ∈ gridNodesList m n := by
  intro p hp
  have h := (wrList_mem m n p).mp hp
  rw [gridNodesList_mem, gridNodesList_mem]
  omega

theorem wc_fold (m n : ℕ) :
    (List.range m).map (fun i => ((i, 0), (i, n - 1))) = wcList m n := rfl

theorem wr_fold (m n : ℕ) :
    (List.range n).map (fun j => ((0, j), (m - 1, j))) = wrList m n := rfl

theorem grid_2d_graph_int_none (m n : ℕ) (periodic : Bool) :
    grid_2d_graph (.int m) (.int n) periodic none =
      ⟨false, false, gridNodesList m n,
        ((reList m n ++ ceList m n) ++ (if 2 < n ∧ periodic = true then wcList m n else [])) ++
          (if 2 < m ∧ periodic = true then wrList m n else []),
        if periodic = true
        then "periodic_grid_2d_graph(" ++ (NodeSpec.int m).tupleRepr ++ "," ++
          (NodeSpec.int n).tupleRepr ++ ")"
        else "grid_2d_graph(" ++ Nat.repr m ++ commaSpace ++ Nat.repr n ++ ")"⟩ := by
  have h0 : emptyCore (Nat.repr 0) ([] : List (ℕ × ℕ)) none =
      (⟨false, false, [], [], "empty_graph(" ++ Nat.repr 0 ++ ")"⟩ : Graph (ℕ × ℕ)) := rfl
  have hre := record_addEdges_eq (gridNodesList m n) [] (reList m n)
    ("grid_2d_graph(" ++ Nat.repr m ++ commaSpace ++ Nat.repr n ++ ")")
    (reList_pairwise_fresh m n) (by intro p hp; simp) (reList_nodes m n)
  have hce := record_addEdges_eq (gridNodesList m n) (reList m n) (ceList m n)
    ("grid_2d_graph(" ++ Nat.repr m ++ commaSpace ++ Nat.repr n ++ ")")
    (ceList_pairwise_fresh m n) (ceList_fresh_re m n) (ceList_nodes m n)
  simp only [grid_2d_graph, NodeSpec.resolve, NodeSpec.reprPy, h0]
  rw [grid2d_nodes_eq, grid2d_re_eq, grid2d_ce_eq,
    record_addNodes_eq _ _ (gridNodesList_nodup m n), hre]
  simp only [List.nil_append]
  rw [hce]
  simp only [addEdges_directed, Bool.false_eq_true, if_false, List.length_range]
  cases periodic with
  | false => simp
  | true =>
    simp only [if_true, and_true]
    by_cases hn : 2 < n
    · simp only [hn, if_true]
      rw [range_headD n (by omega), range_getLastD n (by omega), wc_fold]
      have hwc := record_addEdges_eq (gridNodesList m n) (reList m n ++ ceList m n)
        (wcList m n) ("grid_2d_graph(" ++ Nat.repr m ++ commaSpace ++ Nat.repr n ++ ")")
        (wcList_pairwise_fresh m n hn)
        (by
          intro p hp
          have h := wcList_fresh m n hn p hp
          constructor
          · intro hmem
            rcases List.mem_append.mp hmem with hmem | hmem
            · exact h.1.1 hmem
            · exact h.2.1 hmem
          · intro hmem
            rcases List.mem_append.mp hmem with hmem | hmem
            · exact h.1.2 hmem
            · exact h.2.2 hmem)
        (wcList_nodes m n hn)
      rw [hwc]
      simp only [addEdges_directed, Bool.false_eq_true, if_false]
      by_cases hm : 2 < m
      · simp only [hm, if_true]
        rw [range_headD m (by omega), range_getLastD m (by omega), wr_fold]
        have hwr := record_addEdges_eq (gridNodesList m n)
          ((reList m n ++ ceList m n) ++ wcList m n) (wrList m n)
          ("grid_2d_graph(" ++ Nat.repr m ++ commaSpace ++ Nat.repr n ++ ")")
          (wrList_pairwise_fresh m n hm)
          (by
            intro p hp
            have h := wrList_fresh m n hm p hp
            constructor
            · intro hmem
              rcases List.mem_append.mp hmem with hmem | hmem
              · rcases List.mem_append.mp hmem with hmem | hmem
                · exact h.1.1.1 hmem
                · exact h.1.2.1 hmem
              · exact h.2.1 hmem
            · intro hmem
              rcases List.mem_append.mp hmem with hmem | hmem
              · rcases List.mem_append.mp hmem with hmem | hmem
                · exact h.1.1.2 hmem
                · exact h.1.2.2 hmem
              · exact h.2.2 hmem)
          (wrList_nodes m n hm)
        rw [hwr]
      · simp only [hm, if_false]
        simp
    · simp only [hn, if_false]
      by_cases hm : 2 < m
      · simp only [hm, if_true]
        rw [range_headD m (by omega), range_getLastD m (by omega), wr_fold]
        have hwr := record_addEdges_eq (gridNodesList m n)
          (reList m n ++ ceList m n) (wrList m n)
          ("grid_2d_graph(" ++ Nat.repr m ++ commaSpace ++ Nat.repr n ++ ")")
          (wrList_pairwise_fresh m n hm)
          (by
            intro p hp
            have h := wrList_fresh m n hm p hp
            constructor
            · intro hmem
              rcases List.mem_append.mp hmem with hmem | hmem
              · exact h.1.1.1 hmem
              · exact h.1.2.1 hmem
            · intro hmem
              rcases List.mem_append.mp hmem with hmem | hmem
              · exact h.1.1.2 hmem
              · exact h.1.2.2 hmem)
          (wrList_nodes m n hm)
        rw [hwr]
        simp
      · simp only [hm, if_false]
        simp

theorem countP_proj {γ δ : Type} [DecidableEq δ] (l : List γ) (f : γ → δ)
    (hnd : (l.map f).Nodup) (v : δ) :
    l.countP (fun e => decide (f e = v)) = if v ∈ l.map f then 1 else 0 := by
  have h1 := List.countP_map (fun x => decide (x = v)) f l
  rw [countP_decide_eq_of_nodup (l.map f) hnd v] at h1
  exact h1.symm

theorem reList_map_fst (m n : ℕ) :
    (reList m n).map Prod.fst =
      (List.range (m - 1)).flatMap (fun k => (List.range n).map (fun j => ((k + 1, j) : ℕ × ℕ))) := by
  rw [reList, List.map_flatMap]
  congr 1
  funext k
  rw [List.map_map]
  rfl

theorem reList_map_snd (m n : ℕ) :
    (reList m n).map Prod.snd =
      (List.range (m - 1)).flatMap (fun k => (List.range n).map (fun j => ((k, j) : ℕ × ℕ))) := by
  rw [reList, List.map_flatMap]
  congr 1
  funext k
  rw [List.map_map]
  rfl

theorem ceList_map_fst (m n : ℕ) :
    (ceList m n).map Prod.fst =
      (List.range m).flatMap (fun i => (List.range (n - 1)).map (fun k => ((i, k + 1) : ℕ × ℕ))) := by
  rw [ceList, List.map_flatMap]
  congr 1
  funext i
  rw [List.map_map]
  rfl

theorem ceList_map_snd (m n : ℕ) :
    (ceList m n).map Prod.snd =
      (List.range m).flatMap (fun i => (List.range (n - 1)).map (fun k => ((i, k) : ℕ × ℕ))) := by
  rw [ceList, List.map_flatMap]
  congr 1
  funext i
  rw [List.map_map]
  rfl

theorem count_re_fst (m n i j : ℕ) :
    (reList m n).countP (fun e => decide (e.1 = (i, j))) =
      if 1 ≤ i ∧ i < m ∧ j < n then 1 else 0 := by
  have hnd : ((reList m n).map Prod.fst).Nodup := by
    rw [reList_map_fst]
    exact flatMap_map_nodup _ _ _
      (by intro a b a' b' he; simp only [Prod.mk.injEq] at he; omega)
  rw [countP_proj (reList m n) Prod.fst hnd (i, j)]
  have hmem : ((i, j) ∈ (reList m n).map Prod.fst) ↔ (1 ≤ i ∧ i < m ∧ j < n) := by
    rw [reList_map_fst]
    simp only [List.mem_flatMap, List.mem_map, List.mem_range, Prod.mk.injEq]
    constructor
    · rintro ⟨k, hk, j', hj', rfl, rfl⟩
      omega
    · rintro ⟨h1, h2, h3⟩
      exact ⟨i - 1, by omega, j, h3, by omega, rfl⟩
  simp only [hmem]

theorem count_re_snd (m n i j : ℕ) :
    (reList m n).countP (fun e => decide (e.2 = (i, j))) =
      if i < m - 1 ∧ j < n then 1 else 0 := by
  have hnd : ((reList m n).map Prod.snd).Nodup := by
    rw [reList_map_snd]
    exact flatMap_map_nodup _ _ _
      (by intro a b a' b' he; simp only [Prod.mk.injEq] at he; omega)
  rw [countP_proj (reList m n) Prod.snd hnd (i, j)]
  have hmem : ((i, j) ∈ (reList m n).map Prod.snd) ↔ (i < m - 1 ∧ j < n) := by
    rw [reList_map_snd]
    simp only [List.mem_flatMap, List.mem_map, List.mem_range, Prod.mk.injEq]
    constructor
    · rintro ⟨k, hk, j', hj', rfl, rfl⟩
      omega
    · rintro ⟨h1, h2⟩
      exact ⟨i, h1, j, h2, rfl, rfl⟩
  simp only [hmem]

theorem count_ce_fst (m n i j : ℕ) :
    (ceList m n).countP (fun e => decide (e.1 = (i, j))) =
      if i < m ∧ 1 ≤ j ∧ j < n then 1 else 0 := by
  have hnd : ((ceList m n).map Prod.fst).Nodup := by
    rw [ceList_map_fst]
    exact flatMap_map_nodup _ _ _
      (by intro a b a' b' he; simp only [Prod.mk.injEq] at he; omega)
  rw [countP_proj (ceList m n) Prod.fst hnd (i, j)]
  have hmem : ((i, j) ∈ (ceList m n).map Prod.fst) ↔ (i < m ∧ 1 ≤ j ∧ j < n) := by
    rw [ceList_map_fst]
    simp only [List.mem_flatMap, List.mem_map, List.mem_range, Prod.mk.injEq]
    constructor
    · rintro ⟨i', hi', k, hk, rfl, rfl⟩
      omega
    · rintro ⟨h1, h2, h3⟩
      exact ⟨i, h1, j - 1, by omega, rfl, by omega⟩
  simp only [hmem]

theorem count_ce_snd (m n i j : ℕ) :
    (ceList m n).countP (fun e => decide (e.2 = (i, j))) =
      if i < m ∧ j < n - 1 then 1 else 0 := by
  have hnd : ((ceList m n).map Prod.snd).Nodup := by
    rw [ceList_map_snd]
    exact flatMap_map_nodup _ _ _
      (by intro a b a' b' he; simp only [Prod.mk.injEq] at he; omega)
  rw [countP_proj (ceList m n) Prod.snd hnd (i, j)]
  have hmem : ((i, j) ∈ (ceList m n).map Prod.snd) ↔ (i < m ∧ j < n - 1) := by
    rw [ceList_map_snd]
    simp only [List.mem_flatMap, List.mem_map, List.mem_range, Prod.mk.injEq]
    constructor
    · rintro ⟨i', hi', k, hk, rfl, rfl⟩
      omega
    · rintro ⟨h1, h2⟩
      exact ⟨i, h1, j, h2, rfl, rfl⟩
  simp only [hmem]

theorem count_wc_fst (m n i j : ℕ) :
    (wcList m n).countP (fun e => decide (e.1 = (i, j))) =
      if i < m ∧ j = 0 then 1 else 0 := by
  have hnd : ((wcList m n).map Prod.fst).Nodup := by
    rw [wcList, List.map_map]
    exact (List.nodup_range m).map (by intro x y hxy; simpa using congrArg Prod.fst hxy)
  rw [countP_proj (wcList m n) Prod.fst hnd (i, j)]
  have hmem : ((i, j) ∈ (wcList m n).map Prod.fst) ↔ (i < m ∧ j = 0) := by
    rw [wcList, List.map_map]
    simp only [List.mem_map, List.mem_range, Function.comp_apply, Prod.mk.injEq]
    constructor
    · rintro ⟨i', hi', rfl, rfl⟩
      omega
    · rintro ⟨h1, rfl⟩
      exact ⟨i, h1, rfl, rfl⟩
  simp only [hmem]

theorem count_wc_snd (m n i j : ℕ) :
    (wcList m n).countP (fun e => decide (e.2 = (i, j))) =
      if i < m ∧ j = n - 1 then 1 else 0 := by
  have hnd : ((wcList m n).map Prod.snd).Nodup := by
    rw [wcList, List.map_map]
    exact (List.nodup_range m).map (by intro x y hxy; simpa using congrArg Prod.fst hxy)
  rw [countP_proj (wcList m n) Prod.snd hnd (i, j)]
  have hmem : ((i, j) ∈ (wcList m n).map Prod.snd) ↔ (i < m ∧ j = n - 1) := by
    rw [wcList, List.map_map]
    simp only [List.mem_map, List.mem_range, Function.comp_apply, Prod.mk.injEq]
    constructor
    · rintro ⟨i', hi', rfl, rfl⟩
      omega
    · rintro ⟨h1, rfl⟩
      exact ⟨i, h1, rfl, rfl⟩
  simp only [hmem]

theorem count_wr_fst (m n i j : ℕ) :
    (wrList m n).countP (fun e => decide (e.1 = (i, j))) =
      if i = 0 ∧ j < n then 1 else 0 := by
  have hnd : ((wrList m n).map Prod.fst).Nodup := by
    rw [wrList, List.map_map]
    exact (List.nodup_range n).map (by intro x y hxy; simpa using congrArg Prod.snd hxy)
  rw [countP_proj (wrList m n) Prod.fst hnd (i, j)]
  have hmem : ((i, j) ∈ (wrList m n).map Prod.fst) ↔ (i = 0 ∧ j < n) := by
    rw [wrList, List.map_map]
    simp only [List.mem_map, List.mem_range, Function.comp_apply, Prod.mk.injEq]
    constructor
    · rintro ⟨j', hj', rfl, rfl⟩
      omega
    · rintro ⟨rfl, h2⟩
      exact ⟨j, h2, rfl, rfl⟩
  simp only [hmem]

theorem count_wr_snd (m n i j : ℕ) :
    (wrList m n).countP (fun e => decide (e.2 = (i, j))) =
      if i = m - 1 ∧ j < n then 1 else 0 := by
  have hnd : ((wrList m n).map Prod.snd).Nodup := by
    rw [wrList, List.map_map]
    exact (List.nodup_range n).map (by intro x y hxy; simpa using congrArg Prod.snd hxy)
  rw [countP_proj (wrList m n) Prod.snd hnd (i, j)]
  have hmem : ((i, j) ∈ (wrList m n).map Prod.snd) ↔ (i = m - 1 ∧ j < n) := by
    rw [wrList, List.map_map]
    simp only [List.mem_map, List.mem_range, Function.comp_apply, Prod.mk.injEq]
    constructor
    · rintro ⟨j', hj', rfl, rfl⟩
      omega
    · rintro ⟨rfl, h2⟩
      exact ⟨j, h2, rfl, rfl⟩
  simp only [hmem]

theorem grid2d_nodes_length (m n : ℕ) (periodic : Bool) :
    (grid_2d_graph (.int m) (.int n) periodic none).nodes.length = m * n := by
  rw [grid_2d_graph_int_none]
  exact gridNodesList_length m n

theorem grid2d_degree_nonperiodic (m n i j : ℕ) (hm : 2 ≤ m) (hn : 2 ≤ n)
    (hi : i < m) (hj : j < n) :
    (grid_2d_graph (.int m) (.int n) false none).degree (i, j) =
      (if i = 0 ∨ i = m - 1 then 1 else 2) + (if j = 0 ∨ j = n - 1 then 1 else 2) := by
  rw [grid_2d_graph_int_none]
  show (reList m n ++ ceList m n ++ _ ++ _).countP _ +
    (reList m n ++ ceList m n ++ _ ++ _).countP _ = _
  simp only [Bool.false_eq_true, and_false, if_false, List.append_nil]
  rw [List.countP_append, List.countP_append, count_re_fst, count_ce_fst,
    count_re_snd, count_ce_snd]
  split_ifs <;> omega

theorem grid2d_degree_periodic (m n i j : ℕ) (hm : 2 < m) (hn : 2 < n)
    (hi : i < m) (hj : j < n) :
    (grid_2d_graph (.int m) (.int n) true none).degree (i, j) = 4 := by
  rw [grid_2d_graph_int_none]
  show (reList m n ++ ceList m n ++ _ ++ _).countP _ +
    (reList m n ++ ceList m n ++ _ ++ _).countP _ = _
  simp only [hm, hn, and_true, if_true]
  rw [List.countP_append, List.countP_append, List.countP_append,
    List.countP_append, List.countP_append, List.countP_append,
    count_re_fst, count_ce_fst, count_wc_fst, count_wr_fst,
    count_re_snd, count_ce_snd, count_wc_snd, count_wr_snd]
  split_ifs <;> omega

/-! Name and capability-flag facts used by the naming and container claims. -/

theorem ladder_graph_name (n : ℕ) :
    (okG (ladder_graph n none)).name = "ladder_graph_(" ++ Nat.repr n ++ ")" := by
  simp only [ladder_graph]
  rw [if_neg (by decide), okG_ok]
  simp [addEdges_name]

theorem dgmFold_name (es : List (ℕ × ℕ)) (p : Graph ℕ × ℕ) :
    ((es.foldl (fun p e => (((p.1.addEdge p.2 e.1).addEdge p.2 e.2), p.2 + 1)) p).1).name =
      p.1.name := by
  induction es generalizing p with
  | nil => rfl
  | cons e t ih =>
    rw [List.foldl_cons, ih]
    simp

theorem dgmLoop_name (k : ℕ) (p : Graph ℕ × ℕ) : (dgmLoop k p).1.name = p.1.name := by
  induction k generalizing p with
  | zero => rfl
  | succ t ih =>
    show (dgmLoop t (dgmInner p.1 p.2)).1.name = _
    rw [ih]
    exact dgmFold_name p.1.edges (p.1, p.2)

theorem dgm_name (n : ℕ) :
    (okG (dorogovtsev_goltsev_mendes_graph n none)).name =
      "Dorogovtsev-Goltsev-Mendes Graph" := by
  simp only [dorogovtsev_goltsev_mendes_graph]
  rw [if_neg (by decide), if_neg (by decide), okG_ok]
  unfold dgmBody
  split
  · simp
  · rw [dgmLoop_name]
    simp

theorem hypercube_graph_name (n : ℕ) :
    (hypercube_graph n).name = "hypercube_graph_(" ++ Nat.repr n ++ ")" := rfl

theorem cmg_name (sizes : List ℕ) :
    (complete_multipartite_graph sizes).name =
      "complete_multiparite_graph" ++ pyTupleRepr sizes := by
  unfold complete_multipartite_graph
  split
  · rfl
  · simp

theorem cmg_flags (sizes : List ℕ) :
    (complete_multipartite_graph sizes).directed = false ∧
    (complete_multipartite_graph sizes).multi = false := by
  unfold complete_multipartite_graph
  split
  · exact ⟨rfl, rfl⟩
  · constructor <;> simp

theorem grid_graph_flags (dims : List ℕ) (periodic : Bool) :
    (grid_graph dims periodic).directed = false ∧
    (grid_graph dims periodic).multi = false := by
  unfold grid_graph
  split
  · exact ⟨rfl, rfl⟩
  · exact ⟨rfl, rfl⟩

theorem hypercube_graph_flags (n : ℕ) :
    (hypercube_graph n).directed = false ∧ (hypercube_graph n).multi = false := by
  unfold hypercube_graph
  exact grid_graph_flags (List.replicate n 2) false

theorem turan_flags (n r : ℕ) (h1 : 1 ≤ r) (h2 : r ≤ n) :
    (turan_graph n r).isOk = true ∧
    (okG (turan_graph n r)).directed = false ∧
    (okG (turan_graph n r)).multi = false := by
  unfold turan_graph
  rw [if_pos ⟨h1, h2⟩]
  exact ⟨rfl, (cmg_flags _).1, (cmg_flags _).2⟩

/-! Degree facts for `star_graph`. -/

theorem star_graph_int_edges_eq (n : ℕ) :
    (okG (star_graph (.int n) none)).edges =
      (List.map Nat.succ (List.range n)).map (fun v => ((0 : ℕ), v)) := by
  rw [star_graph_int_eq n none rfl, okG_ok]

theorem star_degree_center (n : ℕ) : (okG (star_graph (.int n) none)).degree 0 = n := by
  unfold Graph.degree
  rw [star_graph_int_edges_eq n]
  rw [List.countP_map, List.countP_map, List.countP_map, List.countP_map]
  have e1 : (((fun e : ℕ × ℕ => decide (e.1 = 0)) ∘ fun v => ((0 : ℕ), v)) ∘ Nat.succ) =
      fun _ => true := by
    funext v
    simp
  have e2 : (((fun e : ℕ × ℕ => decide (e.2 = 0)) ∘ fun v => ((0 : ℕ), v)) ∘ Nat.succ) =
      fun _ => false := by
    funext v
    simp
  rw [e1, e2, List.countP_true, List.length_range]
  have hc := congrFun (List.countP_false (α := ℕ)) (List.range n)
  rw [hc]
  rfl

theorem star_degree_leaf (n v : ℕ) (h1 : 1 ≤ v) (h2 : v ≤ n) :
    (okG (star_graph (.int n) none)).degree v = 1 := by
  unfold Graph.degree
  rw [star_graph_int_edges_eq n]
  rw [List.countP_map, List.countP_map, List.countP_map, List.countP_map]
  have hf : (((fun e : ℕ × ℕ => decide (e.1 = v)) ∘ fun w => ((0 : ℕ), w)) ∘ Nat.succ) =
      fun _ => false := by
    funext w
    simp only [Function.comp_apply, decide_eq_false_iff_not]
    omega
  have hsnd : List.countP
      (((fun e : ℕ × ℕ => decide (e.2 = v)) ∘ fun w => ((0 : ℕ), w)) ∘ Nat.succ)
      (List.range n) = List.countP (fun k => decide (k = v - 1)) (List.range n) := by
    refine List.countP_congr ?_
    intro k hk
    simp only [Function.comp_apply, decide_eq_true_eq]
    omega
  rw [hf, hsnd, countP_range_eq, if_pos (by omega)]
  have hc := congrFun (List.countP_false (α := ℕ)) (List.range n)
  rw [hc]
  rfl

/-! Claim theorems. -/

theorem turan_edges_via_cmg (n r : ℕ) (h1 : 1 ≤ r) (h2 : r ≤ n) :
    (okG (turan_graph n r)).edges =
      (complete_multipartite_graph (turanPartitions n r)).edges := by
  unfold turan_graph
  rw [if_pos ⟨h1, h2⟩, okG_ok]

/-- C1 counterexample: `star_graph(3, create_using=cDir)` with the directed
container `cDir` raises, but the container is not left unchanged: at raise
time it has been cleared, renamed by `empty_graph`, and repopulated with the
star's four nodes (`cDirMut`), which differs from its original state. -/
theorem c1_star_mutates_container_cex :
    star_graph (.int 3) (some cDir) = .error (directedErrorMsg, some cDirMut) ∧
    cDirMut ≠ cDir := by
  refine ⟨rfl, ?_⟩
  intro h
  exact absurd (congrArg Graph.nodes h) (by decide)

/-- C1 amended: when `star_graph` is called with a directed `create_using`
container, it raises the directed-variant error, but only after `empty_graph`
has cleared the caller's container and repopulated it with the star's node
set `range(n+1)` (and no edges); the container is not left unchanged. -/
theorem c1_star_raises_after_mutation (n : ℕ) (c : Graph ℕ)
    (hd : c.directed = true) :
    star_graph (.int n) (some c) = .error (directedErrorMsg,
      some ⟨true, c.multi, List.range (n + 1), [],
        "empty_graph(" ++ pyListRepr (List.range (n + 1)) ++ ")"⟩) :=
  star_graph_directed_state n c hd

/-- C1 witness: the amended statement at `n = 3` with the concrete directed
container `cDir`. -/
theorem c1_witness :
    cDir.directed = true ∧
    star_graph (.int 3) (some cDir) = .error (directedErrorMsg,
      some ⟨true, false, List.range 4, [],
        "empty_graph(" ++ pyListRepr (List.range 4) ++ ")"⟩) :=
  ⟨rfl, c1_star_raises_after_mutation 3 cDir rfl⟩

/-- C2 counterexample: supplying a `create_using` container to `turan_graph`
does not clear, refill and return that container: the source signature
`def turan_graph(n, r)` has no such parameter, so the call raises TypeError
and no graph is returned at all. -/
theorem c2_turan_create_using_cex :
    turan_graph_call 6 2 (some cPlain) = .error typeErrorMsg ∧
    turan_graph_call 6 2 (some cPlain) ≠ .ok cPlain := by
  refine ⟨rfl, ?_⟩
  intro h
  exact Except.noConfusion h

/-- C2 amended: the generators with a `create_using` parameter clear and
refill the supplied container preserving its directed/multigraph variant
(shown here for `empty_graph` and `complete_graph`), and default to a fresh
simple undirected container; but `turan_graph`, `complete_multipartite_graph`,
`grid_graph` and `hypercube_graph` take no container argument (supplying one
raises TypeError) and always return a fresh simple undirected graph. -/
theorem c2_create_using_support :
    (∀ (n r : ℕ) (cu : Graph ℕ),
      turan_graph_call n r (some cu) = .error typeErrorMsg) ∧
    (∀ (sizes : List ℕ) (cu : Graph ℕ),
      complete_multipartite_graph_call sizes (some cu) = .error typeErrorMsg) ∧
    (∀ (dims : List ℕ) (p : Bool) (cu : Graph (List ℕ)),
      grid_graph_call dims p (some cu) = .error typeErrorMsg) ∧
    (∀ (k : ℕ) (cu : Graph (List ℕ)),
      hypercube_graph_call k (some cu) = .error typeErrorMsg) ∧
    (∀ sizes : List ℕ, (complete_multipartite_graph sizes).directed = false ∧
      (complete_multipartite_graph sizes).multi = false) ∧
    (∀ (dims : List ℕ) (p : Bool), (grid_graph dims p).directed = false ∧
      (grid_graph dims p).multi = false) ∧
    (∀ k : ℕ, (hypercube_graph k).directed = false ∧
      (hypercube_graph k).multi = false) ∧
    (∀ n r : ℕ, 1 ≤ r → r ≤ n → (turan_graph n r).isOk = true ∧
      (okG (turan_graph n r)).directed = false ∧
      (okG (turan_graph n r)).multi = false) ∧
    (∀ (n : ℕ) (c : Graph ℕ), empty_graph (.int n) (some c) =
      ⟨c.directed, c.multi, List.range n, [],
        "empty_graph(" ++ Nat.repr n ++ ")"⟩) ∧
    (∀ (n : ℕ) (c : Graph ℕ),
      (complete_graph (.int n) (some c)).directed = c.directed ∧
      (complete_graph (.int n) (some c)).multi = c.multi) := by
  refine ⟨fun n r cu => rfl, fun sizes cu => rfl, fun dims p cu => rfl,
    fun k cu => rfl, cmg_flags, grid_graph_flags, hypercube_graph_flags,
    turan_flags, fun n c => empty_graph_int_eq n (some c), fun n c =>
    ⟨(complete_graph_int_base n (some c)).1, (complete_graph_int_base n (some c)).2.1⟩⟩

/-- C2 witness: the Turan range precondition at `(6, 2)` with the resulting
fresh simple undirected graph. -/
theorem c2_witness :
    (1 ≤ 2 ∧ 2 ≤ 6) ∧
    (turan_graph 6 2).isOk = true ∧ (okG (turan_graph 6 2)).directed = false :=
  ⟨⟨by decide, by decide⟩, (c2_create_using_support.2.2.2.2.2.2.2.1 6 2
    (by decide) (by decide)).1,
    (c2_create_using_support.2.2.2.2.2.2.2.1 6 2 (by decide) (by decide)).2.1⟩

/-- C3 counterexample: `turan_graph(13, 9)` has 74 edges, but the claimed
formula `floor((r-1) * n^2 / (2r))` gives 75. -/
theorem c3_turan_edge_formula_cex :
    (okG (turan_graph 13 9)).edges.length = 74 ∧
    (9 - 1) * (13 * 13) / (2 * 9) = 75 ∧
    ¬((okG (turan_graph 13 9)).edges.length = (9 - 1) * (13 * 13) / (2 * 9)) := by
  refine ⟨by decide, by decide, by decide⟩

/-- C3 amended: for `1 <= r <= n`, `turan_graph(n, r)` is produced via
`complete_multipartite_graph` on `r` block sizes that differ by at most one
and sum to `n`, and its edge count `E` satisfies exactly
`2*r*E + (n mod r)*(r - n mod r) = (r-1)*n^2` — i.e.
`E = ((r-1)*n^2 - (n mod r)*(r - n mod r)) / (2r)`, which equals
`floor((r-1)*n^2/(2r))` only when `(n mod r)*(r - n mod r) < 2r`. -/
theorem c3_turan_structure_and_edges (n r : ℕ) (h1 : 1 ≤ r) (h2 : r ≤ n) :
    (turan_graph n r).isOk = true ∧
    (okG (turan_graph n r)).edges =
      (complete_multipartite_graph (turanPartitions n r)).edges ∧
    (turanPartitions n r).length = r ∧
    (turanPartitions n r).sum = n ∧
    (∀ s ∈ turanPartitions n r, s = n / r ∨ s = n / r + 1) ∧
    2 * r * (okG (turan_graph n r)).edges.length + (n % r) * (r - n % r) =
      (r - 1) * (n * n) := by
  refine ⟨(turan_graph_ok_edges n r h1 h2).1, turan_edges_via_cmg n r h1 h2,
    turanPartitions_length n r h1, turanPartitions_sum n r h1,
    turanPartitions_sizes n r, ?_⟩
  rw [(turan_graph_ok_edges n r h1 h2).2]
  exact turan_edge_identity n r h1 h2

/-- C3 witness: the amended statement at `(n, r) = (7, 3)`. -/
theorem c3_witness :
    (1 ≤ 3 ∧ 3 ≤ 7) ∧
    (turan_graph 7 3).isOk = true ∧
    2 * 3 * (okG (turan_graph 7 3)).edges.length + (7 % 3) * (3 - 7 % 3) =
      (3 - 1) * (7 * 7) :=
  ⟨⟨by decide, by decide⟩, (c3_turan_structure_and_edges 7 3 (by decide) (by decide)).1,
    (c3_turan_structure_and_edges 7 3 (by decide) (by decide)).2.2.2.2.2⟩

/-- C4 counterexample: in `star_graph(3)` the node 3 (the identifier
appended last) is not the center: it has degree 1, is not adjacent to node
1, while node 0 has degree 3. -/
theorem c4_star_center_cex :
    (okG (star_graph (.int 3) none)).degree 3 = 1 ∧
    edgeMemB (okG (star_graph (.int 3) none)).edges (3, 1) = false ∧
    (okG (star_graph (.int 3) none)).degree 0 = 3 := by
  refine ⟨by decide, by decide, by decide⟩

/-- C4 amended: for every `n >= 0`, `star_graph(n)` returns an undirected
graph on the nodes `range(n+1)` with exactly `n` edges, where the center —
the node of degree `n` connected to all others — is node 0 (`nodes[0]`, the
first identifier), and every node `1..n` has degree 1. -/
theorem c4_star_structure (n : ℕ) :
    (star_graph (.int n) none).isOk = true ∧
    (okG (star_graph (.int n) none)).directed = false ∧
    (okG (star_graph (.int n) none)).nodes = List.range (n + 1) ∧
    (okG (star_graph (.int n) none)).edges.length = n ∧
    (okG (star_graph (.int n) none)).degree 0 = n ∧
    (∀ v, 1 ≤ v → v ≤ n → (okG (star_graph (.int n) none)).degree v = 1) := by
  refine ⟨?_, ?_, ?_, ?_, star_degree_center n, fun v h1 h2 => star_degree_leaf n v h1 h2⟩
  · rw [star_graph_int_eq n none rfl]
    rfl
  · rw [star_graph_int_eq n none rfl, okG_ok]
  · rw [star_graph_int_eq n none rfl, okG_ok]
  · rw [star_graph_int_edges_eq n]
    simp

/-- C4 witness: the amended statement at `n = 3`, `v = 2`. -/
theorem c4_witness :
    (1 ≤ 2 ∧ 2 ≤ 3) ∧ (okG (star_graph (.int 3) none)).degree 2 = 1 :=
  ⟨⟨by decide, by decide⟩, (c4_star_structure 3).2.2.2.2.2 2 (by decide) (by decide)⟩

/-- C5: for `m1 >= 2`, `m2 >= 0` and an absent or undirected container,
`barbell_graph(m1, m2)` succeeds and its node set is exactly
`{0, ..., 2*m1+m2-1}`; concretely, `barbell_graph(3, 0)` has 6 nodes and 7
edges: the two triangles on `{0,1,2}` and `{3,4,5}` joined by the single
bridge edge `(2, 3)`. -/
theorem c5_barbell_nodes (m1 m2 : ℕ) (cu : Option (Graph ℕ)) (hm1 : 2 ≤ m1)
    (hd : cuDir cu = false) :
    ((barbell_graph m1 m2 cu).isOk = true ∧
      ∀ v, (v ∈ (okG (barbell_graph m1 m2 cu)).nodes ↔ v < 2 * m1 + m2)) ∧
    ((okG (barbell_graph 3 0 none)).nodes.length = 6 ∧
      (okG (barbell_graph 3 0 none)).edges =
        [(0, 1), (0, 2), (1, 2), (3, 4), (3, 5), (4, 5), (2, 3)]) := by
  refine ⟨barbell_graph_ok_and_nodes m1 m2 cu hm1 hd, by decide, by decide⟩

/-- C5 witness: the statement at `(3, 0)` with no container. -/
theorem c5_witness :
    (2 ≤ 3 ∧ cuDir (none : Option (Graph ℕ)) = false) ∧
    (barbell_graph 3 0 none).isOk = true ∧
    (5 ∈ (okG (barbell_graph 3 0 none)).nodes ↔ 5 < 6) :=
  ⟨⟨by decide, rfl⟩, (c5_barbell_nodes 3 0 none (by decide) rfl).1.1,
    (c5_barbell_nodes 3 0 none (by decide) rfl).1.2 5⟩

/-- C6 counterexample: in `grid_2d_graph(1, 1)` the unique node `(0, 0)` is
a corner node but has degree 0, not 2. -/
theorem c6_grid_corner_cex :
    (grid_2d_graph (.int 1) (.int 1) false none).degree (0, 0) = 0 ∧
    (0 : ℕ) ≠ 2 := by
  refine ⟨by decide, by decide⟩

/-- C6 amended: `grid_2d_graph(m, n)` has `m*n` nodes for all `m, n`; for
`m, n >= 2` with `periodic=false`, each node's degree is
`(1 if on a row boundary else 2) + (1 if on a column boundary else 2)` —
corners 2, other boundary nodes 3, interior nodes 4; and with
`periodic=true` and `m, n > 2`, every node has degree 4 (wrap edges are
added per dimension only when its length exceeds 2). -/
theorem c6_grid_2d_structure :
    (∀ (m n : ℕ) (periodic : Bool),
      (grid_2d_graph (.int m) (.int n) periodic none).nodes.length = m * n) ∧
    (∀ m n i j : ℕ, 2 ≤ m → 2 ≤ n → i < m → j < n →
      (grid_2d_graph (.int m) (.int n) false none).degree (i, j) =
        (if i = 0 ∨ i = m - 1 then 1 else 2) +
        (if j = 0 ∨ j = n - 1 then 1 else 2)) ∧
    (∀ m n i j : ℕ, 2 < m → 2 < n → i < m → j < n →
      (grid_2d_graph (.int m) (.int n) true none).degree (i, j) = 4) :=
  ⟨grid2d_nodes_length, grid2d_degree_nonperiodic, grid2d_degree_periodic⟩

/-- C6 witness: a 3x4 grid: boundary node `(0, 2)` has degree 3 and, with
periodic boundaries on a 3x3... (4x4) grid, node `(1, 1)` has degree 4. -/
theorem c6_witness :
    (2 ≤ 3 ∧ 2 ≤ 4) ∧
    (grid_2d_graph (.int 3) (.int 4) false none).degree (0, 2) = 3 ∧
    (grid_2d_graph (.int 4) (.int 4) true none).degree (1, 1) = 4 :=
  ⟨⟨by decide, by decide⟩,
    (by
      have h := c6_grid_2d_structure.2.1 3 4 0 2 (by decide) (by decide)
        (by decide) (by decide)
      simpa using h),
    c6_grid_2d_structure.2.2 4 4 1 1 (by decide) (by decide) (by decide) (by decide)⟩

/-- C7: `circulant_graph(10, [1])` has exactly the same unordered edge set
as `cycle_graph(10)` (and the same number of stored edges). -/
theorem c7_circulant_cycle_edge_set :
    sameEdgeSet (circulant_graph 10 [1] none) (okG (cycle_graph (.int 10) none)) = true ∧
    (circulant_graph 10 [1] none).edges.length =
      (okG (cycle_graph (.int 10) none)).edges.length := by
  refine ⟨by decide, by decide⟩

/-- C8: for every `n >= 0` and any optional container, `complete_graph(n)`
has exactly `n` nodes and `n*(n-1)/2` edges when the resulting graph is
undirected, or `n*(n-1)` edges when it is directed. -/
theorem c8_complete_graph_counts (n : ℕ) (cu : Option (Graph ℕ)) :
    (complete_graph (.int n) cu).nodes.length = n ∧
    (complete_graph (.int n) cu).edges.length =
      (if (complete_graph (.int n) cu).directed = true
       then n * (n - 1) else n * (n - 1) / 2) := by
  constructor
  · rw [(complete_graph_int_base n cu).2.2.1, List.length_range]
  · rw [(complete_graph_int_base n cu).1]
    exact complete_graph_int_edges n cu

/-- C9 counterexample: `ladder_graph(3)` is named `"ladder_graph_(3)"`, with
an underscore before the parenthesis, not `"ladder_graph(3)"`. -/
theorem c9_ladder_name_cex :
    (okG (ladder_graph 3 none)).name = "ladder_graph_(3)" ∧
    "ladder_graph_(3)" ≠ "ladder_graph(3)" := by
  refine ⟨by decide, by decide⟩

/-- C9 amended: the descriptive labels do not all follow the format
`"<family_name>(<params>)"`: `ladder_graph` and `hypercube_graph` insert an
underscore before the parenthesis, `dorogovtsev_goltsev_mendes_graph` uses
the fixed label `"Dorogovtsev-Goltsev-Mendes Graph"` with no parameters, and
`complete_multipartite_graph` uses the misspelled family name
`"complete_multiparite_graph"` followed by the Python tuple rendering of its
sizes. -/
theorem c9_names :
    (∀ n : ℕ, (okG (ladder_graph n none)).name =
      "ladder_graph_(" ++ Nat.repr n ++ ")") ∧
    (∀ k : ℕ, (hypercube_graph k).name = "hypercube_graph_(" ++ Nat.repr k ++ ")") ∧
    (∀ n : ℕ, (okG (dorogovtsev_goltsev_mendes_graph n none)).name =
      "Dorogovtsev-Goltsev-Mendes Graph") ∧
    (∀ sizes : List ℕ, (complete_multipartite_graph sizes).name =
      "complete_multiparite_graph" ++ pyTupleRepr sizes) :=
  ⟨ladder_graph_name, hypercube_graph_name, dgm_name, cmg_name⟩

/-- C10: `cycle_graph` on an empty node specification (integer 0 or the
empty list) raises IndexError from `add_edge(nodes[-1], nodes[0])` instead
of returning a null graph, and for every node specification resolving to at
least one node it succeeds. -/
theorem c10_cycle_empty_and_total :
    (∀ cu : Option (Graph ℕ), cycle_graph (.int 0) cu = .error indexErrorMsg) ∧
    (∀ cu : Option (Graph ℕ), cycle_graph (.nodes []) cu = .error indexErrorMsg) ∧
    (∀ (spec : NodeSpec) (cu : Option (Graph ℕ)), spec.resolve ≠ [] →
      (cycle_graph spec cu).isOk = true) :=
  ⟨fun _ => rfl, fun _ => rfl, cycle_graph_total⟩

/-- C10 witness: totality at the five-node integer specification. -/
theorem c10_witness :
    (NodeSpec.int 5).resolve ≠ [] ∧ (cycle_graph (.int 5) none).isOk = true :=
  ⟨by decide, c10_cycle_empty_and_total.2.2 (.int 5) none (by decide)⟩
